import Mathlib

/-!
Verification of the PV classification-and-widget-instantiation core of
`build_opi.py` (a BOY OPI screen generator).

The Python source is shallowly embedded as follows:

* Python `str` values are modelled as `String` (and, for the character-level
  rewriting functions `sub_macros` / `expand_macros`, as `List Char`);
* Python dicts with insertion order are modelled as association lists;
* the two `epics.caget` network queries are modelled by an oracle parameter
  `caget : String → Option String` keyed on the full query string
  (`"<pv>.RTYP"` / `"<pv>.DESC"`); `caget` returning `none` models a failed
  or timed-out query (Python `None`);
* Python exceptions are modelled with `Except String`, carrying the message;
  `get_pv_info`'s bare `return` (after the unknown-record-type diagnostic)
  is modelled as `Except.ok none`;
* the XML widget trees only ever have their `x`/`y`/`width`/`height` fields
  read or written by the core, so a widget is a tree of four integer fields;
* the serialize / `%`-substitute / reparse step of `add_widget` is modelled
  by recording, in the appended instance, the widget subtree together with
  the substitution source (the merged group record and shared layout info);
  placeholder-substitution failure is outside the claims and not modelled;
* file loading (`read_template`, reading the PV list) is external I/O; the
  already-loaded template catalog is passed in as a parameter.
-/

set_option autoImplicit false

/-! ### Character-level string rewriting (`sub_macros` / `expand_macros`) -/

abbrev Chars := List Char

/-- Python `text.replace(pat, rep)` for an empty `pat`: the replacement is
inserted before every character and at the end. -/
def py_replace_empty (rep : Chars) : Chars → Chars
  | [] => rep
  | c :: rest => rep ++ c :: py_replace_empty rep rest

/-- Python `text.replace(pat, rep)` for nonempty `pat`: replace the leftmost
occurrence, continue after the inserted text (non-overlapping, left to
right).  The extra fuel argument (initialised to the text length, which
strictly bounds every recursive call) only makes the recursion structural;
it never runs out. -/
def py_replace_fuel (pat rep : Chars) : Nat → Chars → Chars
  | _, [] => []
  | 0, s => s
  | Nat.succ fuel, c :: rest =>
    if pat ≠ [] ∧ pat.isPrefixOf (c :: rest) then
      rep ++ py_replace_fuel pat rep fuel (List.drop pat.length (c :: rest))
    else
      c :: py_replace_fuel pat rep fuel rest

/-- Python `text.replace(pat, rep)`. -/
def py_replace (pat rep text : Chars) : Chars :=
  if pat = [] then py_replace_empty rep text
  else py_replace_fuel pat rep text.length text

/-- The macro token `$(name)` that `sub_macros` inserts
(`'$(%s)' % from_`). -/
def token_of (name : Chars) : Chars :=
  '$' :: '(' :: (name ++ [')'])

/-- `sub_macros(text, macros)`: for each `(name, value)` pair, in table
order, replace every literal occurrence of `value` by the token
`$(name)`. -/
def sub_macros_chars (text : Chars) (macros : List (Chars × Chars)) : Chars :=
  macros.foldl (fun t nv => py_replace nv.2 (token_of nv.1) t) text

def is_open_bracket (c : Char) : Bool :=
  c = '(' || c = '\x7b'

def is_close_bracket (c : Char) : Bool :=
  c = ')' || c = '\x7d'

/-- Is the head of the list a closing bracket? -/
def head_close (l : Chars) : Bool :=
  match l with
  | cb :: _ => is_close_bracket cb
  | [] => false

/-- Does the regex `\$[({]name[)}]` match at the head of `s`? -/
def tok_match (name : Chars) (s : Chars) : Bool :=
  match s with
  | c :: b :: rest =>
    c = '$' && is_open_bracket b && name.isPrefixOf rest &&
      head_close (rest.drop name.length)
  | _ => false

/-- The remainder of `s` after the head match of `\$[({]name[)}]`. -/
def tok_rest (name : Chars) (s : Chars) : Chars :=
  ((s.tail.tail).drop name.length).tail

/-- One `re.sub('\$[({]name[)}]', rep, text)` pass: scan left to right,
replacing non-overlapping matches.  As in `py_replace_fuel`, the fuel
argument (initialised to the text length) only makes the recursion
structural. -/
def expand_one_fuel (name rep : Chars) : Nat → Chars → Chars
  | _, [] => []
  | 0, s => s
  | Nat.succ fuel, c :: rest =>
    if tok_match name (c :: rest) then
      rep ++ expand_one_fuel name rep fuel (tok_rest name (c :: rest))
    else
      c :: expand_one_fuel name rep fuel rest

def expand_one (name rep text : Chars) : Chars :=
  expand_one_fuel name rep text.length text

/-- `expand_macros(text, macros)`: for each `(name, value)` pair, in table
order, replace every `$(name)` / `${name}` token by the literal value. -/
def expand_macros_chars (text : Chars) (macros : List (Chars × Chars)) : Chars :=
  macros.foldl (fun t nv => expand_one nv.1 nv.2 t) text

/-- String-level `sub_macros` (the Python function works on `str`). -/
def sub_macros (text : String) (macros : List (String × String)) : String :=
  String.mk (sub_macros_chars text.toList
    (macros.map (fun nv => (nv.1.toList, nv.2.toList))))

/-- String-level `expand_macros`. -/
def expand_macros (text : String) (macros : List (String × String)) : String :=
  String.mk (expand_macros_chars text.toList
    (macros.map (fun nv => (nv.1.toList, nv.2.toList))))

/-! ### Record-type resolver (`get_pv_info` and its helpers) -/

/-- The fixed `rtype_groups` table: record type → (category, direction). -/
def rtype_groups : String → Option (String × String)
  | "ai" => some ("text", "r")
  | "ao" => some ("text", "w")
  | "bi" => some ("binary", "r")
  | "bo" => some ("binary", "w")
  | "stringin" => some ("text", "r")
  | "stringout" => some ("text", "w")
  | "longin" => some ("text", "r")
  | "longout" => some ("text", "w")
  | "mbbi" => some ("menu", "r")
  | "mbbo" => some ("menu", "w")
  | "calc" => some ("text", "r")
  | "calcout" => some ("text", "r")
  | _ => none

/-- The dict returned by `get_pv_info` (keys `readback_pv`, `setpoint_pv`,
`desc`, `desc_pv`, `template`; the derived access mode only appears inside
`template`). -/
structure PvInfo where
  readback_pv : String
  setpoint_pv : String
  desc : String
  desc_pv : String
  template : String
deriving DecidableEq, Repr

/-- First block of `get_pv_info`: if `rtype` was not given with exactly two
entries, require macros and perform one `caget('<pv>.RTYP')` per PV (a
failed query yields `None`); otherwise use the given record types. -/
def resolve_rtypes (caget : String → Option String)
    (macros : List (String × String)) (pvs : List String)
    (rtype : List String) : Except String (List (Option String)) :=
  if rtype.isEmpty ∨ rtype.length ≠ 2 then
    if macros.isEmpty then
      Except.error "Macros must be set to determine record types"
    else
      Except.ok (pvs.map (fun pv => caget (expand_macros pv macros ++ ".RTYP")))
  else
    Except.ok (rtype.map some)

/-- One step of the `for pv, (group, access) in zip(pvs, rtype_info)` loop:
the accumulator is `(readback_pv, setpoint_pv, group)`, where `group` is the
loop variable (the category of the last tuple element; `desc_pv` assigned in
the loop is dead, being overwritten or bypassed afterwards). -/
def assign_step (acc : String × String × String)
    (x : String × String × String) : String × String × String :=
  if x.2.2 = "r" then (x.1, acc.2.1, x.2.1)
  else if x.2.2 = "w" then (acc.1, x.1, x.2.1)
  else (acc.1, acc.2.1, x.2.1)

/-- The final description assignment of `get_pv_info`: only when no explicit
description was given AND macros are nonempty is `caget('<desc_pv>.DESC')`
consulted (an empty answer leaves the description empty); in every other
case — including when an explicit description WAS given — the description is
set to `readback_pv`. -/
def resolve_description (caget : String → Option String)
    (macros : List (String × String))
    (description readback_pv desc_pv : String) : String :=
  if description = "" ∧ ¬macros.isEmpty then
    match caget (expand_macros desc_pv macros ++ ".DESC") with
    | some d => d
    | none => description
  else readback_pv

/-- Builds the returned dict (`ret[...] = ...` block), with
`template = '%(group)s_%(access)s_group' % locals()`. -/
def mk_group (caget : String → Option String)
    (macros : List (String × String)) (description readback_pv setpoint_pv
    desc_pv grp access : String) : PvInfo :=
  { readback_pv := readback_pv
    setpoint_pv := setpoint_pv
    desc := resolve_description caget macros description readback_pv desc_pv
    desc_pv := desc_pv
    template := grp ++ "_" ++ access ++ "_group" }

/-- `get_pv_info(macros, pvs, rtype, description)`.  `Except.error` models a
raised `ValueError`; `Except.ok none` models the bare `return` taken when a
record type is missing from `rtype_groups` (after the
`'Unknown record type'` diagnostic). -/
def get_pv_info (caget : String → Option String)
    (macros : List (String × String)) (pvs : List String)
    (rtype : List String) (description : String) :
    Except String (Option PvInfo) :=
  match resolve_rtypes caget macros pvs rtype with
  | Except.error e => Except.error e
  | Except.ok rts =>
    match rts.mapM (fun rt => rt.bind rtype_groups) with
    | none => Except.ok none
    | some rtype_info =>
      let access := rtype_info.map (fun gi => gi.2)
      if access = ["r", "r"] ∨ access = ["w", "w"] then
        Except.error "2 readbacks/setpoints in one group?"
      else
        let z := (pvs.zip rtype_info).foldl assign_step ("", "", "")
        if z.1 ≠ "" then
          Except.ok (some (mk_group caget macros description z.1 z.2.1 z.1
            z.2.2 (if z.2.1 ≠ "" then "rw" else "ro")))
        else if z.2.1 ≠ "" then
          Except.ok (some (mk_group caget macros description z.1 z.2.1 z.2.1
            z.2.2 "wo"))
        else
          Except.error "Need either readback/setpoint pv"

/-! ### PV grouping (the pairing loop of `main`, lines 280-289) -/

/-- Python `list.remove`: drop the first occurrence, or fail (`ValueError`)
when the element is absent. -/
def remove_first (l : List String) (a : String) : Option (List String) :=
  match l with
  | [] => none
  | b :: rest =>
    if b = a then some rest else (remove_first rest a).map (b :: ·)

/-- The body of `for pv1 in list(others)` — note the iteration is over a
snapshot of the original list, so a PV already consumed as the second
element of a pair is revisited; `sub` is `re.sub(pattern, replace, ·)`.
(The `isinstance(pv1, tuple)` guard in the source is vacuous: `others`
holds strings only.) -/
def group_pvs_go (sub : String → String) :
    List String → List String → List (String × String) →
    Except String (List String × List (String × String))
  | [], others, pairs => Except.ok (others, pairs)
  | pv1 :: rest, others, pairs =>
    let pv2 := sub pv1
    if pv1 ≠ pv2 ∧ pv2 ∈ others then
      match remove_first others pv1 with
      | none => Except.error "ValueError: list.remove(x): x not in list"
      | some o1 =>
        match remove_first o1 pv2 with
        | none => Except.error "ValueError: list.remove(x): x not in list"
        | some o2 => group_pvs_go sub rest o2 (pairs ++ [(pv1, pv2)])
    else group_pvs_go sub rest others pairs

/-- The grouping pass of `main`: returns `(unclassified singles, pairs)`. -/
def group_pvs (sub : String → String) (pvs : List String) :
    Except String (List String × List (String × String)) :=
  group_pvs_go sub pvs pvs []

/-- Model of `re.sub(r'(.*)_IN$', r'\1_OUT', s)` for newline-free subjects:
a subject ending in `_IN` is rewritten (greedy `.*` captures everything
before the final `_IN`), anything else is left unchanged. -/
def pair_in_out (s : String) : String :=
  if ['_', 'I', 'N'].isSuffixOf s.toList then
    String.mk (s.toList.take (s.toList.length - 3) ++ ['_', 'O', 'U', 'T'])
  else s

/-- Model of `re.sub('A', 'AB', s)` (a literal pattern: every `A` becomes
`AB`, left to right). -/
def sub_a_ab (s : String) : String :=
  String.mk (py_replace ['A'] ['A', 'B'] s.toList)

/-! ### Widget instantiation (`add_widget`) -/

/-- A template widget subtree; only the four integer geometry fields are
ever touched by the core, so nothing else is modelled. -/
inductive Widget where
  | mk (x y width height : Int) (children : List Widget)

def Widget.x : Widget → Int
  | .mk v _ _ _ _ => v

def Widget.y : Widget → Int
  | .mk _ v _ _ _ => v

def Widget.width : Widget → Int
  | .mk _ _ v _ _ => v

def Widget.height : Widget → Int
  | .mk _ _ _ v _ => v

def Widget.children : Widget → List Widget
  | .mk _ _ _ _ cs => cs

/-- Python `int(value * scale)`: float multiplication then truncation toward
zero (scale factors are modelled as exact rationals; `Int.div` truncates
toward zero exactly like Python's `int()`). -/
def py_int (q : ℚ) : Int :=
  Int.tdiv q.num (q.den : Int)

def scale_attr_value (v : Int) (scale : ℚ) : Int :=
  py_int ((v : ℚ) * scale)

/-- `scale_attributes(widget, attr, scale)`: rescale the named geometry
field on the widget and all its descendants, truncating to integer. -/
def scale_attributes (attr : String) (scale : ℚ) : Widget → Widget
  | .mk x y w h cs =>
    .mk (if attr = "x" then scale_attr_value x scale else x)
        (if attr = "y" then scale_attr_value y scale else y)
        (if attr = "width" then scale_attr_value w scale else w)
        (if attr = "height" then scale_attr_value h scale else h)
        (cs.attach.map (fun c => scale_attributes attr scale c.1))
termination_by w => sizeOf w
decreasing_by
  simp only [Widget.mk.sizeOf_spec]
  have := List.sizeOf_lt_of_mem c.2
  omega

def Widget.set_xy (w : Widget) (x y : Int) : Widget :=
  match w with
  | .mk _ _ wd ht cs => .mk x y wd ht cs

/-- Shared layout fields passed through `**info` by `main` into
`make_display` (its `x_scale` / `y_scale` keyword arguments); the update
`pv_info.update(info)` merges exactly these into each group's dict. -/
structure SharedInfo where
  x_scale : ℚ
  y_scale : ℚ
deriving DecidableEq, Repr

/-- An instance appended to the display root.  The
serialize / `%`-substitute / reparse step is modelled by recording the
scaled widget copy together with its substitution source: either the title
string or the merged (deep-copied group, shared info) dict. -/
inductive Inst where
  | title (t : String) (shared : SharedInfo) (w : Widget)
  | group (g : PvInfo) (shared : SharedInfo) (w : Widget)

/-- The merged dict an appended group instance was substituted from, if it
is a group instance. -/
def Inst.group_info : Inst → Option (PvInfo × SharedInfo)
  | .group g s _ => some (g, s)
  | _ => none

/-- Template catalog lookup (`templates[widget_name]`). -/
def lookup_template (templates : List (String × Widget)) (name : String) :
    Option Widget :=
  (templates.find? (fun p => p.1 == name)).map (fun p => p.2)

structure AddResult where
  inst : Option Inst
  nextY : ℚ

/-- `add_widget(x, y, parent, widget_name, x_scale, y_scale, spacing,
**info)`.  A missing template prints a diagnostic and returns the cursor
unchanged.  Otherwise the template is deep-copied, conditionally rescaled,
`x`/`y` are reassigned to `x*x_scale` / `y*y_scale`, the copy's own `x`/`y`
fields are overwritten with `x*x_scale` / `y*y_scale` AGAIN (the scale is
applied twice to the position), the instance is appended, and
`y + spacing + int(height-of-the-scaled-copy)` is returned — where `y` is
the REASSIGNED `y*y_scale`, not the cursor value that was passed in. -/
def add_widget (templates : List (String × Widget)) (x y : ℚ)
    (widget_name : String) (x_scale y_scale spacing : ℚ)
    (mk : Widget → Inst) : AddResult :=
  match lookup_template templates widget_name with
  | none => { inst := none, nextY := y }
  | some w0 =>
    let w1 := if x_scale ≠ 1 then
        scale_attributes "width" x_scale (scale_attributes "x" x_scale w0)
      else w0
    let w2 := if y_scale ≠ 1 then
        scale_attributes "height" y_scale (scale_attributes "y" y_scale w1)
      else w1
    let x1 := x * x_scale
    let y1 := y * y_scale
    let w3 := w2.set_xy (py_int (x1 * x_scale)) (py_int (y1 * y_scale))
    { inst := some (mk w3), nextY := y1 + spacing + (w3.height : ℚ) }

/-! ### Display assembly (`make_display`, `display_from_pv_list`) -/

/-- The key set of every dict produced by `get_pv_info`. -/
def pv_info_keys : List String :=
  ["readback_pv", "setpoint_pv", "desc", "desc_pv", "template"]

def PvInfo.get_field (g : PvInfo) (k : String) : String :=
  if k = "readback_pv" then g.readback_pv
  else if k = "setpoint_pv" then g.setpoint_pv
  else if k = "desc" then g.desc
  else if k = "desc_pv" then g.desc_pv
  else if k = "template" then g.template
  else ""

/-- Sort-key resolution of `make_display` (lines 150-159): `'pv'` →
`desc_pv`, `'type'` → `template`, otherwise membership of `sort` in
`pvs[0]` is tested — which raises `IndexError` when the group list is
empty. -/
def resolve_sort_key (sort : String) (pvs : List PvInfo) :
    Except String (Option String) :=
  if sort = "pv" then Except.ok (some "desc_pv")
  else if sort = "type" then Except.ok (some "template")
  else
    match pvs with
    | [] => Except.error "IndexError: list index out of range"
    | _ :: _ =>
      if sort ∈ pv_info_keys then Except.ok (some sort) else Except.ok none

/-- Stable insertion used to model Python's stable `list.sort(key=...)`:
an element is placed after every element it is not strictly below. -/
def stable_insert (lt : PvInfo → PvInfo → Bool) (a : PvInfo) :
    List PvInfo → List PvInfo
  | [] => [a]
  | b :: rest => if lt a b then a :: b :: rest else b :: stable_insert lt a rest

/-- Python's stable `list.sort` with a strict comparison on keys. -/
def py_sort (lt : PvInfo → PvInfo → Bool) (l : List PvInfo) : List PvInfo :=
  l.foldl (fun acc a => stable_insert lt a acc) []

/-- Python's `<` on strings: lexicographic comparison by code point. -/
def chars_lt : Chars → Chars → Bool
  | [], [] => false
  | [], _ :: _ => true
  | _ :: _, [] => false
  | a :: as, b :: bs =>
    if a < b then true else if b < a then false else chars_lt as bs

def field_lt (k : String) (a b : PvInfo) : Bool :=
  chars_lt (a.get_field k).toList (b.get_field k).toList

structure DisplayOut where
  instances : List Inst
  macro_elems : List (String × String)
  pvs_after : List PvInfo
  final_y : ℚ

def widgets_step (templates : List (String × Widget)) (x : ℚ)
    (inf : SharedInfo) (acc : List Inst × ℚ) (g : PvInfo) :
    List Inst × ℚ :=
  let r := add_widget templates x acc.2 g.template inf.x_scale inf.y_scale 5
    (Inst.group g inf)
  (acc.1 ++ r.inst.toList, r.nextY)

/-- `make_display(root, pvs, x, y, title, macros, sort, **info)`.  The
in-place `pvs.sort(...)` is modelled by returning the post-call contents of
the caller's list in `pvs_after`; the per-macro `<name>value</name>`
children injected into the root's `macros` element are recorded in
`macro_elems`; each group is deep-copied, merged with the shared info and
instantiated in (possibly sorted) order, threading the cursor. -/
def make_display (templates : List (String × Widget)) (pvs : List PvInfo)
    (x y : ℚ) (title : String) (macros : List (String × String))
    (sort : String) (inf : SharedInfo) : Except String DisplayOut :=
  let r0 := if title ≠ "" then
      add_widget templates x y "title_group" inf.x_scale inf.y_scale 5
        (Inst.title title inf)
    else { inst := none, nextY := y }
  match resolve_sort_key sort pvs with
  | Except.error e => Except.error e
  | Except.ok k =>
    let pvs' := match k with
      | some key => py_sort (field_lt key) pvs
      | none => pvs
    let fin := pvs'.foldl (widgets_step templates x inf) (r0.inst.toList, r0.nextY)
    Except.ok { instances := fin.1, macro_elems := macros,
                pvs_after := pvs', final_y := fin.2 }

/-- `display_from_pv_list(macros, others, groups, ...)`: resolve every
single and pair (a raised `ValueError` aborts the whole comprehension),
silently drop the `None`s from unknown record types, then assemble the
display.  Loading the template file is external I/O, so the already-loaded
catalog is a parameter. -/
def display_from_pv_list (caget : String → Option String)
    (templates : List (String × Widget)) (macros : List (String × String))
    (others : List String) (groups : List (String × String))
    (x y : ℚ) (title sort : String) (inf : SharedInfo) :
    Except String DisplayOut := do
  let tuples := others.map (fun pv => [pv]) ++ groups.map (fun g => [g.1, g.2])
  let infos ← tuples.mapM (fun pvs => get_pv_info caget macros pvs [] "")
  make_display templates (infos.filterMap id) x y title macros sort inf

/-! ### Token-collision-freedom and mixed texts (for the round-trip law)

The spec's round-trip law (§8) needs a hypothesis "p contains no token
collisions".  We make it precise: the subject contains no `$` (hence no
pre-existing macro tokens), macro names are nonempty alphanumeric (also
justifying the literal-regex model of `expand_macros`) and pairwise
distinct, macro values are nonempty and free of the structural characters
`$ ( ) { }`, and no value occurs inside a name.  The proof tracks texts as
`MText`: a leading fragment followed by (token, fragment) pairs. -/

def dollar_free (s : Chars) : Bool :=
  s.all (fun c => !(c == '$'))

def plain_name (s : Chars) : Bool :=
  !s.isEmpty && s.all Char.isAlphanum

def plain_value (s : Chars) : Bool :=
  !s.isEmpty && s.all (fun c =>
    !(c == '$' || c == '(' || c == ')' || c == '\x7b' || c == '\x7d'))

/-- Is `v` a contiguous substring of `n`? (decidable, structural). -/
def infix_of (v : Chars) : Chars → Bool
  | [] => v.isEmpty
  | c :: rest => v.isPrefixOf (c :: rest) || infix_of v rest

def no_token_collisions (p : Chars) (m : List (Chars × Chars)) : Prop :=
  dollar_free p = true ∧
  (m.map Prod.fst).Nodup ∧
  (∀ nv ∈ m, plain_name nv.1 = true ∧ plain_value nv.2 = true) ∧
  (∀ nv ∈ m, ∀ nv' ∈ m, infix_of nv.2 nv'.1 = false)

/-- A text seen as a leading fragment followed by (token name, trailing
fragment) pairs; `render` puts the `$(name)` tokens back. -/
structure MText where
  head : Chars
  toks : List (Chars × Chars)

def MText.render (T : MText) : Chars :=
  T.head ++ T.toks.flatMap (fun p => token_of p.1 ++ p.2)

/-- Python dict lookup on the macro table (first binding wins). -/
def assoc_val (m : List (Chars × Chars)) (n : Chars) : Chars :=
  match m.find? (fun nv => nv.1 == n) with
  | some nv => nv.2
  | none => []

/-- The text an `MText` stands for, with every token replaced by its
macro's value. -/
def MText.under (m : List (Chars × Chars)) (T : MText) : Chars :=
  T.head ++ T.toks.flatMap (fun p => assoc_val m p.1 ++ p.2)

/-- Structure of fragments after one `sub_macros` replacement pass: the
mirror of `py_replace_fuel v (token_of n)` that keeps the inserted tokens
separate from the copied characters. -/
def frag_rep_fuel (v n : Chars) : Nat → Chars → MText
  | _, [] => ⟨[], []⟩
  | 0, s => ⟨s, []⟩
  | Nat.succ fuel, c :: rest =>
    if v ≠ [] ∧ v.isPrefixOf (c :: rest) then
      let T := frag_rep_fuel v n fuel (List.drop v.length (c :: rest))
      ⟨[], (n, T.head) :: T.toks⟩
    else
      let T := frag_rep_fuel v n fuel rest
      ⟨c :: T.head, T.toks⟩

def frag_rep (v n f : Chars) : MText := frag_rep_fuel v n f.length f

/-- One `sub_macros` pass on a mixed text: replace `v` by `$(n)`-tokens
inside every fragment (tokens themselves are untouched). -/
def sub_step (v n : Chars) (T : MText) : MText :=
  ⟨(frag_rep v n T.head).head,
   (frag_rep v n T.head).toks ++
     T.toks.flatMap (fun p =>
       (p.1, (frag_rep v n p.2).head) :: (frag_rep v n p.2).toks)⟩

/-- One `expand_macros` pass on the token list: tokens named `nj` are
inlined as the fragment `vj`, merging with the neighbouring fragments; the
first component is the text merged into the preceding fragment. -/
def expand_toks (nj vj : Chars) : List (Chars × Chars) → Chars × List (Chars × Chars)
  | [] => ([], [])
  | (n1, f) :: rest =>
    let r := expand_toks nj vj rest
    if n1 = nj then (vj ++ f ++ r.1, r.2)
    else ([], (n1, f ++ r.1) :: r.2)

/-- One `expand_macros` pass on a mixed text. -/
def expand_step (nj vj : Chars) (T : MText) : MText :=
  ⟨T.head ++ (expand_toks nj vj T.toks).1, (expand_toks nj vj T.toks).2⟩

/-! ### Concrete fixtures used by witnesses and counterexamples -/

/-- A childless demo template widget of height 10. -/
def w_demo : Widget := .mk 0 0 100 10 []

def templates_demo : List (String × Widget) := [("text_ro_group", w_demo)]

def templates_t : List (String × Widget) := [("t", w_demo)]

/-- An oracle on which every channel-access query fails. -/
def caget_none : String → Option String := fun _ => none

/-- Oracle: `X1` has the unmapped record type `weirdtype`, `X2` is an `ai`;
description queries fail. -/
def caget_c1 : String → Option String := fun q =>
  if q = "X1.RTYP" then some "weirdtype"
  else if q = "X2.RTYP" then some "ai"
  else none

/-- Oracle: `B:ONLY` resolves to record type `bi`. -/
def caget_bi : String → Option String := fun q =>
  if q = "B:ONLY.RTYP" then some "bi" else none

/-- Oracle: `B:ONLY` resolves to record type `ao`. -/
def caget_ao : String → Option String := fun q =>
  if q = "B:ONLY.RTYP" then some "ao" else none

/-- Oracle answering every query with a constant marker string. -/
def caget_const : String → Option String := fun _ => some "FROMCA"

def mk_demo : Widget → Inst := Inst.title "t" ⟨1, 1⟩

/-- A demo group record. -/
def g_demo : PvInfo := ⟨"a", "b", "c", "d", "e"⟩

/-- The two PVs a pair consumes (used to state conservation of PVs by the
grouper). -/
def pair_elems (q : String × String) : List String := [q.1, q.2]

/-- A second demo group record, later than `g_demo` in `desc_pv` order. -/
def g_demo2 : PvInfo := ⟨"x", "y", "z", "w", "v"⟩

/-! ### Theorems -/

/-- Helper: every direction in the `rtype_groups` table is `r` or `w`. -/
theorem rtype_groups_dir (rt g d : String)
    (h : rtype_groups rt = some (g, d)) : d = "r" ∨ d = "w" := by
  unfold rtype_groups at h
  split at h <;> simp_all

/-- Claim C1, counterexample: a PV whose record type `weirdtype` is not in
the table does NOT abort the run — `get_pv_info` returns `None` (after a
printed diagnostic, with no `UnknownRecordTypeError` raised), and
`display_from_pv_list` silently drops that group and still produces the
widget of the later group `X2`. -/
theorem C1_counterexample :
    get_pv_info caget_c1 [("M", "V")] ["X1"] [] "" = Except.ok none ∧
    (display_from_pv_list caget_c1 templates_demo [("M", "V")] ["X1", "X2"]
        [] 0 0 "" "" ⟨1, 1⟩).map
      (fun o => o.instances.filterMap Inst.group_info) =
      Except.ok [(⟨"X2", "", "", "X2", "text_ro_group"⟩, ⟨1, 1⟩)] :=
  ⟨rfl, rfl⟩

/-- Claim C1, amended: whenever some resolved record type is missing from
the `rtype_groups` table, `get_pv_info` prints a diagnostic and returns
`None` instead of raising; `display_from_pv_list` filters the `None` out
and continues, so the offending group is silently skipped and widgets for
the remaining groups are still produced (shown concretely for
`X1`/`weirdtype` followed by `X2`/`ai`). -/
theorem C1_amended (caget : String → Option String)
    (macros : List (String × String)) (pvs rtype : List String)
    (desc : String) (rts : List (Option String))
    (h1 : resolve_rtypes caget macros pvs rtype = Except.ok rts)
    (h2 : rts.mapM (fun rt => rt.bind rtype_groups) = none) :
    get_pv_info caget macros pvs rtype desc = Except.ok none ∧
    (display_from_pv_list caget_c1 templates_demo [("M", "V")]
        ["X1", "X2"] [] 0 0 "" "" ⟨1, 1⟩).map
      (fun o => o.instances.filterMap Inst.group_info) =
      Except.ok [(⟨"X2", "", "", "X2", "text_ro_group"⟩, ⟨1, 1⟩)] := by
  refine ⟨?_, rfl⟩
  unfold get_pv_info
  rw [h1]
  dsimp only
  rw [h2]

/-- Claim C1, amended, at the concrete unknown record type `weirdtype`. -/
theorem C1_amended_witness :
    get_pv_info caget_c1 [("M", "V")] ["X1"] [] "" = Except.ok none ∧
    (display_from_pv_list caget_c1 templates_demo [("M", "V")]
        ["X1", "X2"] [] 0 0 "" "" ⟨1, 1⟩).map
      (fun o => o.instances.filterMap Inst.group_info) =
      Except.ok [(⟨"X2", "", "", "X2", "text_ro_group"⟩, ⟨1, 1⟩)] :=
  C1_amended caget_c1 [("M", "V")] ["X1"] [] "" [some "weirdtype"] rfl rfl

/-- Claim C2, counterexample: with the empty string as the `r`-direction PV
of an `r`/`w` pair (record types `ai`, `ao`), resolution succeeds but —
because Python truthiness treats `''` as absent — the group degrades to
`wo` (template `text_wo_group`) instead of the claimed `access = 'rw'`
with the `r` PV as readback. -/
theorem C2_counterexample :
    get_pv_info caget_none [] ["", "X"] ["ai", "ao"] "" =
      Except.ok (some ⟨"", "X", "", "X", "text_wo_group"⟩) :=
  rfl

/-- Claim C2, amended: for a two-PV tuple of NONEMPTY names whose record
types resolve (via either path) to directions `da`, `db`: equal directions
raise the invalid-pairing `ValueError`, and an `r`/`w` split succeeds with
the `r` PV as `readback_pv`, the `w` PV as `setpoint_pv` and derived access
`rw` (the template is `<category-of-last-PV>_rw_group`). -/
theorem C2_amended (caget : String → Option String)
    (macros : List (String × String)) (a b : String) (rtype : List String)
    (ra rb2 ga gb da db : String) (desc : String)
    (hres : resolve_rtypes caget macros [a, b] rtype =
      Except.ok [some ra, some rb2])
    (h1 : rtype_groups ra = some (ga, da))
    (h2 : rtype_groups rb2 = some (gb, db))
    (hna : a ≠ "") (hnb : b ≠ "") :
    (da = db → get_pv_info caget macros [a, b] rtype desc =
      Except.error "2 readbacks/setpoints in one group?") ∧
    (da = "r" → db = "w" →
      get_pv_info caget macros [a, b] rtype desc =
        Except.ok (some (mk_group caget macros desc a b a gb "rw")) ∧
      (mk_group caget macros desc a b a gb "rw").readback_pv = a ∧
      (mk_group caget macros desc a b a gb "rw").setpoint_pv = b ∧
      (mk_group caget macros desc a b a gb "rw").template =
        gb ++ "_" ++ "rw" ++ "_group") ∧
    (da = "w" → db = "r" →
      get_pv_info caget macros [a, b] rtype desc =
        Except.ok (some (mk_group caget macros desc b a b gb "rw")) ∧
      (mk_group caget macros desc b a b gb "rw").readback_pv = b ∧
      (mk_group caget macros desc b a b gb "rw").setpoint_pv = a ∧
      (mk_group caget macros desc b a b gb "rw").template =
        gb ++ "_" ++ "rw" ++ "_group") := by
  unfold get_pv_info
  rw [hres]
  simp only [List.mapM_cons, List.mapM_nil, Option.pure_def,
    Option.bind_eq_bind, Option.some_bind, h1, h2]
  simp only [List.map_cons, List.map_nil, List.zip_cons_cons, List.zip_nil_right,
    List.foldl_cons, List.foldl_nil]
  refine ⟨?_, ?_, ?_⟩
  · intro hdd
    subst hdd
    rcases rtype_groups_dir ra ga da h1 with hv | hv <;> subst hv
    · rw [if_pos (Or.inl rfl)]
    · rw [if_pos (Or.inr rfl)]
  · intro hda hdb
    subst hda; subst hdb
    rw [if_neg (by simp)]
    refine ⟨by simp [assign_step, hna, hnb], rfl, rfl, rfl⟩
  · intro hda hdb
    subst hda; subst hdb
    rw [if_neg (by simp)]
    refine ⟨by simp [assign_step, hna, hnb], rfl, rfl, rfl⟩

/-- Claim C2, amended, at the pair `("P", "Q")` with record types
`("ai", "ao")` and then `("ao", "ai")`, and the invalid pairing
`("ai", "ai")`. -/
theorem C2_amended_witness :
    (get_pv_info caget_none [] ["P", "Q"] ["ai", "ai"] "" =
      Except.error "2 readbacks/setpoints in one group?") ∧
    (get_pv_info caget_none [] ["P", "Q"] ["ai", "ao"] "" =
      Except.ok (some (mk_group caget_none [] "" "P" "Q" "P" "text" "rw"))) ∧
    (get_pv_info caget_none [] ["P", "Q"] ["ao", "ai"] "" =
      Except.ok (some (mk_group caget_none [] "" "Q" "P" "Q" "text" "rw"))) :=
  ⟨(C2_amended caget_none [] "P" "Q" ["ai", "ai"] "ai" "ai" "text" "text"
      "r" "r" "" rfl rfl rfl (by decide) (by decide)).1 rfl,
   ((C2_amended caget_none [] "P" "Q" ["ai", "ao"] "ai" "ao" "text" "text"
      "r" "w" "" rfl rfl rfl (by decide) (by decide)).2.1 rfl rfl).1,
   ((C2_amended caget_none [] "P" "Q" ["ao", "ai"] "ao" "ai" "text" "text"
      "w" "r" "" rfl rfl rfl (by decide) (by decide)).2.2 rfl rfl).1⟩

/-- Claim C3: on input `["A:PV_IN", "A:PV_OUT"]` with the pair pattern
`(.*)_IN$` → `\1_OUT` the grouper yields exactly one pair and no singles,
and resolving that pair with explicit record types `["ai", "ao"]` yields one
group with `readback_pv = "A:PV_IN"`, `setpoint_pv = "A:PV_OUT"` and
template `text_rw_group` (i.e. derived access `rw`), independently of the
channel-access oracle and the macro table. -/
theorem C3_pair_scenario (caget : String → Option String)
    (macros : List (String × String)) :
    group_pvs pair_in_out ["A:PV_IN", "A:PV_OUT"] =
      Except.ok ([], [("A:PV_IN", "A:PV_OUT")]) ∧
    ∃ info : PvInfo,
      get_pv_info caget macros ["A:PV_IN", "A:PV_OUT"] ["ai", "ao"] "" =
        Except.ok (some info) ∧
      info.readback_pv = "A:PV_IN" ∧ info.setpoint_pv = "A:PV_OUT" ∧
      info.template = "text_rw_group" :=
  ⟨rfl,
   mk_group caget macros "" "A:PV_IN" "A:PV_OUT" "A:PV_IN" "text" "rw",
   rfl, rfl, rfl, rfl⟩

/-- Claim C3, instantiated at a concrete oracle and macro table. -/
theorem C3_pair_scenario_witness :
    group_pvs pair_in_out ["A:PV_IN", "A:PV_OUT"] =
      Except.ok ([], [("A:PV_IN", "A:PV_OUT")]) ∧
    ∃ info : PvInfo,
      get_pv_info caget_none [] ["A:PV_IN", "A:PV_OUT"] ["ai", "ao"] "" =
        Except.ok (some info) ∧
      info.readback_pv = "A:PV_IN" ∧ info.setpoint_pv = "A:PV_OUT" ∧
      info.template = "text_rw_group" :=
  C3_pair_scenario caget_none []

/-- Claim C4, counterexample: resolving `["B:ONLY"]` with explicit record
types `["bi"]` does NOT succeed without an external query — the
single-element `rtype` list fails the `len(rtype) != 2` test, so the lookup
branch is taken: with empty macros the call raises the macros-required
`ValueError`, and with macros present the result is determined by the
external query (here `ao`), not by the supplied `"bi"` — yielding
`text_wo_group` instead of the claimed `binary_ro_group`. -/
theorem C4_counterexample :
    get_pv_info caget_none [] ["B:ONLY"] ["bi"] "" =
      Except.error "Macros must be set to determine record types" ∧
    get_pv_info caget_ao [("M", "V")] ["B:ONLY"] ["bi"] "" =
      Except.ok (some ⟨"", "B:ONLY", "", "B:ONLY", "text_wo_group"⟩) :=
  ⟨rfl, rfl⟩

/-- Helper: evaluation of `get_pv_info` for a single PV going through the
external-lookup branch, when the query resolves to an `r`-direction record
type. -/
theorem get_pv_info_single_r (caget : String → Option String)
    (macros : List (String × String)) (pv : String) (rtype : List String)
    (rt g : String)
    (hlen : rtype.isEmpty ∨ rtype.length ≠ 2) (hm : macros ≠ [])
    (hq : caget (expand_macros pv macros ++ ".RTYP") = some rt)
    (hrt : rtype_groups rt = some (g, "r")) (hpv : pv ≠ "") :
    get_pv_info caget macros [pv] rtype "" =
      Except.ok (some (mk_group caget macros "" pv "" pv g "ro")) := by
  unfold get_pv_info resolve_rtypes
  rw [if_pos hlen, if_neg (by simpa using hm)]
  simp only [List.map_cons, List.map_nil, hq]
  simp only [List.mapM_cons, List.mapM_nil]
  simp only [Option.pure_def, Option.bind_eq_bind, Option.some_bind, hrt]
  simp [assign_step, hpv]

/-- Claim C4, amended: a single-element explicit record-type list is
ignored (explicit record types suppress the external lookup only when
exactly two are supplied).  With empty macros the call fails with the
macros-required error; with macros present, the group is determined by the
external record-type query — when the query answers `bi`, the result is the
single `ro` group with template `binary_ro_group`. -/
theorem C4_amended (caget : String → Option String)
    (h : caget "B:ONLY.RTYP" = some "bi") :
    get_pv_info caget [("M", "V")] ["B:ONLY"] ["bi"] "" =
      Except.ok (some ⟨"B:ONLY", "", (caget "B:ONLY.DESC").getD "",
        "B:ONLY", "binary_ro_group"⟩) ∧
    get_pv_info caget_none [] ["B:ONLY"] ["bi"] "" =
      Except.error "Macros must be set to determine record types" := by
  have hmk : mk_group caget [("M", "V")] "" "B:ONLY" "" "B:ONLY" "binary"
      "ro" =
      ⟨"B:ONLY", "", (caget "B:ONLY.DESC").getD "", "B:ONLY",
        "binary_ro_group"⟩ := by
    unfold mk_group resolve_description
    rw [if_pos (show ("" : String) = "" ∧
      ¬([(("M" : String), ("V" : String))].isEmpty = true) by simp)]
    rw [show (expand_macros "B:ONLY" [("M", "V")] ++ ".DESC") =
      "B:ONLY.DESC" from rfl]
    cases caget "B:ONLY.DESC" <;> rfl
  refine ⟨?_, rfl⟩
  rw [get_pv_info_single_r caget [("M", "V")] "B:ONLY" ["bi"] "bi" "binary"
      (by simp) (by simp)
      (by rw [show (expand_macros "B:ONLY" [("M", "V")] ++ ".RTYP") =
            "B:ONLY.RTYP" from rfl]
          exact h)
      rfl (by simp), hmk]

/-- Claim C4, amended, at the concrete oracle `caget_bi`. -/
theorem C4_amended_witness :
    get_pv_info caget_bi [("M", "V")] ["B:ONLY"] ["bi"] "" =
      Except.ok (some ⟨"B:ONLY", "", (caget_bi "B:ONLY.DESC").getD "",
        "B:ONLY", "binary_ro_group"⟩) ∧
    get_pv_info caget_none [] ["B:ONLY"] ["bi"] "" =
      Except.error "Macros must be set to determine record types" :=
  C4_amended caget_bi (by decide)



/-- Claim C6, counterexample: an explicitly supplied description (`"hello"`)
is NOT kept — the `else` branch of the description logic overwrites it with
`readback_pv` (here `"P"`), and the external description query is indeed
skipped (the oracle's `"FROMCA"` answer does not appear either). -/
theorem C6_counterexample :
    get_pv_info caget_const [("M", "V")] ["P", "Q"] ["ai", "ao"] "hello" =
      Except.ok (some ⟨"P", "Q", "P", "P", "text_rw_group"⟩) ∧
    ("P" : String) ≠ "hello" ∧ ("P" : String) ≠ "FROMCA" :=
  ⟨rfl, by decide, by decide⟩

/-- Claim C6, amended: in every successfully returned group, the
description is the external `caget('<desc_pv>.DESC')` answer (or empty)
exactly when NO explicit description was supplied AND macros are nonempty;
in every other case — macros absent, OR an explicit description supplied
(which is thereby discarded) — the description equals `readback_pv`. -/
theorem C6_amended (caget : String → Option String)
    (macros : List (String × String)) (pvs rtype : List String)
    (desc : String) (info : PvInfo)
    (h : get_pv_info caget macros pvs rtype desc = Except.ok (some info)) :
    (desc = "" → macros ≠ [] →
      info.desc =
        (caget (expand_macros info.desc_pv macros ++ ".DESC")).getD "") ∧
    ((desc ≠ "" ∨ macros = []) → info.desc = info.readback_pv) := by
  have hd : info.desc =
      resolve_description caget macros desc info.readback_pv info.desc_pv := by
    unfold get_pv_info at h
    split at h
    · exact absurd h (by simp)
    · split at h
      · simp at h
      · dsimp only at h
        split at h
        · exact absurd h (by simp)
        · split at h
          · simp only [Except.ok.injEq, Option.some.injEq] at h
            subst h; rfl
          · split at h
            · simp only [Except.ok.injEq, Option.some.injEq] at h
              subst h; rfl
            · exact absurd h (by simp)
  constructor
  · intro h1 h2
    rw [hd]
    unfold resolve_description
    rw [if_pos ⟨h1, by simpa using h2⟩]
    cases hc : caget (expand_macros info.desc_pv macros ++ ".DESC") with
    | none => simpa using h1
    | some d => rfl
  · intro h1
    rw [hd]
    unfold resolve_description
    rw [if_neg]
    rintro ⟨ha, hb⟩
    rcases h1 with hx | hx
    · exact hx ha
    · rw [hx] at hb
      exact hb rfl

/-- Claim C6, amended, at a concrete call with an explicit description and
nonempty macros: the description is overwritten with the readback PV. -/
theorem C6_amended_witness :
    ((("hello" : String) = "" → ([(("M" : String), ("V" : String))]) ≠ [] →
      (⟨"P", "Q", "P", "P", "text_rw_group"⟩ : PvInfo).desc =
        (caget_const (expand_macros
          (⟨"P", "Q", "P", "P", "text_rw_group"⟩ : PvInfo).desc_pv
          [("M", "V")] ++ ".DESC")).getD "") ∧
    ((("hello" : String) ≠ "" ∨ ([(("M" : String), ("V" : String))]) = []) →
      (⟨"P", "Q", "P", "P", "text_rw_group"⟩ : PvInfo).desc =
        (⟨"P", "Q", "P", "P", "text_rw_group"⟩ : PvInfo).readback_pv)) :=
  C6_amended caget_const [("M", "V")] ["P", "Q"] ["ai", "ao"] "hello"
    ⟨"P", "Q", "P", "P", "text_rw_group"⟩ rfl

/-- Claim C8, counterexample: on an EMPTY group list with a sort value that
is neither `'pv'` nor `'type'` (here the default `''`), `make_display`
evaluates `pvs[0]` and raises `IndexError` — the "otherwise" case is not
failure-free. -/
theorem C8_counterexample :
    make_display templates_demo [] 0 0 "" [] "" ⟨1, 1⟩ =
      Except.error "IndexError: list index out of range" :=
  rfl

/-- Claim C8, amended: sort-key resolution behaves as: `'pv'` → `desc_pv`,
`'type'` → `template`; any other value is tested for membership in the
FIRST group's key set — on a nonempty list it sorts by that field if
present and otherwise preserves the original order, but on an empty group
list the `pvs[0]` lookup raises `IndexError`.  When no key is selected the
groups come out in their original order. -/
theorem C8_amended (templates : List (String × Widget)) (pvs : List PvInfo)
    (p : PvInfo) (rest : List PvInfo) (x y : ℚ) (title : String)
    (macros : List (String × String)) (sort : String) (inf : SharedInfo) :
    resolve_sort_key "pv" pvs = Except.ok (some "desc_pv") ∧
    resolve_sort_key "type" pvs = Except.ok (some "template") ∧
    (sort ≠ "pv" → sort ≠ "type" →
      resolve_sort_key sort (p :: rest) =
        Except.ok (if sort ∈ pv_info_keys then some sort else none)) ∧
    (sort ≠ "pv" → sort ≠ "type" →
      resolve_sort_key sort [] =
        Except.error "IndexError: list index out of range") ∧
    (∀ out, resolve_sort_key sort pvs = Except.ok none →
      make_display templates pvs x y title macros sort inf = Except.ok out →
      out.pvs_after = pvs) := by
  refine ⟨rfl, rfl, ?_, ?_, ?_⟩
  · intro h1 h2
    unfold resolve_sort_key
    rw [if_neg h1, if_neg h2]
    dsimp only
    split <;> rfl
  · intro h1 h2
    unfold resolve_sort_key
    rw [if_neg h1, if_neg h2]
  · intro out hk hm
    unfold make_display at hm
    rw [hk] at hm
    simp only [Except.ok.injEq] at hm
    subst hm
    rfl

/-- Claim C8, amended, at concrete inputs (including the empty-list
`IndexError` case and an unknown sort value preserving order). -/
theorem C8_amended_witness :
    resolve_sort_key "pv" [g_demo] = Except.ok (some "desc_pv") ∧
    resolve_sort_key "type" [g_demo] = Except.ok (some "template") ∧
    (("zzz" : String) ≠ "pv" → ("zzz" : String) ≠ "type" →
      resolve_sort_key "zzz" (g_demo :: []) =
        Except.ok (if ("zzz" : String) ∈ pv_info_keys then some "zzz"
          else none)) ∧
    (("zzz" : String) ≠ "pv" → ("zzz" : String) ≠ "type" →
      resolve_sort_key "zzz" [] =
        Except.error "IndexError: list index out of range") ∧
    (∀ out, resolve_sort_key "zzz" [g_demo] = Except.ok none →
      make_display [] [g_demo] 0 0 "" [] "zzz" ⟨1, 1⟩ = Except.ok out →
      out.pvs_after = [g_demo]) :=
  C8_amended [] [g_demo] g_demo [] 0 0 "" [] "zzz" ⟨1, 1⟩

/-- Helper: the named geometry field is the only one rescaled; every other
field keeps its value (top-level height shown here). -/
theorem scale_attributes_height_of_ne (attr : String) (s : ℚ) (w : Widget)
    (h : attr ≠ "height") : (scale_attributes attr s w).height = w.height := by
  cases w with
  | mk x y wd ht cs => simp [scale_attributes, Widget.height, h]

/-- Helper: rescaling `height` truncates `height * scale` to integer. -/
theorem scale_attributes_height_eq (s : ℚ) (w : Widget) :
    (scale_attributes "height" s w).height = scale_attr_value w.height s := by
  cases w with
  | mk x y wd ht cs => simp [scale_attributes, Widget.height]

theorem set_xy_height (w : Widget) (a b : Int) :
    (w.set_xy a b).height = w.height := by
  cases w; rfl

/-- Helper: the value `add_widget` returns when the template exists — it is
`y*y_scale + spacing + (post-scaling height)`, NOT `y + spacing + height`. -/
theorem add_widget_next_y (templates : List (String × Widget)) (x y : ℚ)
    (name : String) (xs ys sp : ℚ) (mk : Widget → Inst) (w : Widget)
    (h : lookup_template templates name = some w) :
    (add_widget templates x y name xs ys sp mk).nextY =
      y * ys + sp +
        ((if ys = 1 then w.height else scale_attr_value w.height ys : Int) : ℚ) := by
  unfold add_widget
  rw [h]
  dsimp only
  by_cases hy : ys = 1
  · rw [if_neg (by simp [hy]), if_pos hy]
    by_cases hx : xs = 1
    · rw [if_neg (by simp [hx])]
      simp [set_xy_height]
    · rw [if_pos hx]
      simp [set_xy_height, scale_attributes_height_of_ne]
  · rw [if_pos hy, if_neg hy]
    by_cases hx : xs = 1
    · rw [if_neg (by simp [hx])]
      simp [set_xy_height, scale_attributes_height_eq,
        scale_attributes_height_of_ne]
    · rw [if_pos hx]
      simp [set_xy_height, scale_attributes_height_eq,
        scale_attributes_height_of_ne]

/-- Claim C7, counterexample: with cursor `y = 100`, `y_scale = 1/2`,
`spacing = 5` and a height-10 template, `add_widget` returns
`100*(1/2) + 5 + 5 = 60` — LESS than the cursor it was given, and different
from the claimed `cursorY + spacing + scaledHeight = 110`; the cursor is
not non-decreasing once `y_scale < 1`. -/
theorem C7_counterexample :
    (add_widget templates_t 0 100 "t" 1 (1/2) 5 mk_demo).nextY = 60 ∧
    ¬(100 ≤ (add_widget templates_t 0 100 "t" 1 (1/2) 5 mk_demo).nextY) ∧
    (add_widget templates_t 0 100 "t" 1 (1/2) 5 mk_demo).nextY ≠
      100 + 5 + 5 := by
  have h60 : (add_widget templates_t 0 100 "t" 1 (1/2) 5 mk_demo).nextY = 60 := by
    rw [add_widget_next_y templates_t 0 100 "t" 1 (1/2) 5 mk_demo w_demo rfl]
    rw [if_neg (by norm_num)]
    have h5 : scale_attr_value (w_demo.height) (1/2 : ℚ) = 5 := by
      unfold scale_attr_value py_int w_demo
      rw [show ((Widget.mk 0 0 100 10 []).height : ℚ) * (1/2 : ℚ) = 5 by
        rw [show (Widget.mk 0 0 100 10 []).height = 10 from rfl]; norm_num]
      decide
    rw [h5]
    norm_num
  refine ⟨h60, by rw [h60]; norm_num, by rw [h60]; norm_num⟩

/-- Claim C7, amended: for a found template, `add_widget` returns
`cursorY * yScale + spacing + (post-scaling height)`.  Only when
`yScale = 1` does this equal `cursorY + spacing + height`, and then the
cursor strictly increases for positive spacing and nonnegative height;
with `yScale ≠ 1` the returned value can drop below the cursor (see the
counterexample). -/
theorem C7_amended (templates : List (String × Widget)) (x y : ℚ)
    (name : String) (xs ys sp : ℚ) (mk : Widget → Inst) (w : Widget)
    (h : lookup_template templates name = some w) :
    (add_widget templates x y name xs ys sp mk).nextY =
      y * ys + sp +
        ((if ys = 1 then w.height else scale_attr_value w.height ys : Int) : ℚ) ∧
    (ys = 1 → (add_widget templates x y name xs ys sp mk).nextY =
      y + sp + (w.height : ℚ)) ∧
    (ys = 1 → 0 < sp → 0 ≤ w.height →
      y < (add_widget templates x y name xs ys sp mk).nextY) := by
  have hm := add_widget_next_y templates x y name xs ys sp mk w h
  refine ⟨hm, ?_, ?_⟩
  · intro hy
    rw [hm, if_pos hy, hy, mul_one]
  · intro hy hsp hh
    rw [hm, if_pos hy, hy, mul_one]
    have hc : (0 : ℚ) ≤ ((w.height : Int) : ℚ) := by exact_mod_cast hh
    linarith

/-- Claim C7, amended, at a concrete instantiation with `y_scale = 1`. -/
theorem C7_amended_witness :
    (add_widget templates_t 0 7 "t" 1 1 5 mk_demo).nextY =
      7 * 1 + 5 +
        ((if (1 : ℚ) = 1 then w_demo.height
          else scale_attr_value w_demo.height 1 : Int) : ℚ) ∧
    ((1 : ℚ) = 1 → (add_widget templates_t 0 7 "t" 1 1 5 mk_demo).nextY =
      7 + 5 + (w_demo.height : ℚ)) ∧
    ((1 : ℚ) = 1 → (0 : ℚ) < 5 → (0 : Int) ≤ w_demo.height →
      (7 : ℚ) < (add_widget templates_t 0 7 "t" 1 1 5 mk_demo).nextY) :=
  C7_amended templates_t 0 7 "t" 1 1 5 mk_demo w_demo rfl

/-- Helper: Python `list.remove` on a present element returns the list
minus its first occurrence (a permutation witness). -/
theorem remove_first_spec (l : List String) (a : String) (h : a ∈ l) :
    ∃ l', remove_first l a = some l' ∧ l.Perm (a :: l') := by
  induction l with
  | nil => cases h
  | cons b rest ih =>
    by_cases hb : b = a
    · subst hb
      exact ⟨rest, by simp [remove_first], List.Perm.refl _⟩
    · rcases List.mem_cons.mp h with hba | hm
      · exact absurd hba.symm hb
      · obtain ⟨l', h1, h2⟩ := ih hm
        refine ⟨b :: l', by simp [remove_first, hb, h1], ?_⟩
        exact (h2.cons b).trans (List.Perm.swap a b l')

/-- Helper: the grouping loop invariant.  If every element of the
remaining snapshot that has already been consumed is a fixed point of the
replacement, the loop cannot hit the `list.remove` `ValueError`; pairs are
`(a, sub a)` with `a ≠ sub a`, and singles plus pair elements are a
permutation of the working list plus already-collected pairs. -/
theorem group_pvs_go_spec (sub : String → String) :
    ∀ (snap : List String), ∀ (others : List String)
      (pairs : List (String × String)),
    snap.Nodup →
    (∀ a ∈ snap, sub (sub a) = sub a) →
    (∀ a ∈ snap, a ∉ others → sub a = a) →
    ∃ s p, group_pvs_go sub snap others pairs = Except.ok (s, p) ∧
      (∀ q ∈ p, q ∈ pairs ∨ (q.2 = sub q.1 ∧ q.1 ≠ q.2)) ∧
      (s ++ p.flatMap pair_elems).Perm (others ++ pairs.flatMap pair_elems) := by
  intro snap
  induction snap with
  | nil =>
    intro others pairs _ _ _
    exact ⟨others, pairs, rfl, fun q hq => Or.inl hq, List.Perm.refl _⟩
  | cons pv1 rest ih =>
    intro others pairs hnd hfix hinv
    have hnd' : rest.Nodup := (List.nodup_cons.mp hnd).2
    have hp1r : pv1 ∉ rest := (List.nodup_cons.mp hnd).1
    by_cases hc : pv1 ≠ sub pv1 ∧ sub pv1 ∈ others
    · have hp1 : pv1 ∈ others := by
        by_contra hno
        exact hc.1 (hinv pv1 (List.mem_cons_self pv1 rest) hno).symm
      obtain ⟨o1, ho1, hperm1⟩ := remove_first_spec others pv1 hp1
      have hp2 : sub pv1 ∈ o1 := by
        rcases List.mem_cons.mp (hperm1.mem_iff.mp hc.2) with hx | hx
        · exact absurd hx.symm hc.1
        · exact hx
      obtain ⟨o2, ho2, hperm2⟩ := remove_first_spec o1 (sub pv1) hp2
      have hinv' : ∀ a ∈ rest, a ∉ o2 → sub a = a := by
        intro a ha hno
        by_cases hao : a ∈ others
        · have : a = pv1 ∨ a = sub pv1 ∨ a ∈ o2 := by
            rcases List.mem_cons.mp (hperm1.mem_iff.mp hao) with hx | hx
            · exact Or.inl hx
            · rcases List.mem_cons.mp (hperm2.mem_iff.mp hx) with hy | hy
              · exact Or.inr (Or.inl hy)
              · exact Or.inr (Or.inr hy)
          rcases this with hx | hx | hx
          · exact absurd (hx ▸ ha) hp1r
          · subst hx
            exact hfix pv1 (List.mem_cons_self pv1 rest)
          · exact absurd hx hno
        · exact hinv a (List.mem_cons_of_mem pv1 ha) hao
      obtain ⟨s, p, heq, hpair, hperm⟩ :=
        ih o2 (pairs ++ [(pv1, sub pv1)]) hnd'
          (fun a ha => hfix a (List.mem_cons_of_mem pv1 ha)) hinv'
      refine ⟨s, p, ?_, ?_, ?_⟩
      · show group_pvs_go sub (pv1 :: rest) others pairs = Except.ok (s, p)
        simp only [group_pvs_go]
        rw [if_pos hc, ho1]
        dsimp only
        rw [ho2]
        exact heq
      · intro q hq
        rcases hpair q hq with hin | hnew
        · rcases List.mem_append.mp hin with hx | hx
          · exact Or.inl hx
          · simp only [List.mem_singleton] at hx
            subst hx
            exact Or.inr ⟨rfl, hc.1⟩
        · exact Or.inr hnew
      · have e1 : others.Perm (pv1 :: sub pv1 :: o2) :=
          hperm1.trans (hperm2.cons pv1)
        have e2 : (pairs ++ [(pv1, sub pv1)]).flatMap pair_elems =
            pairs.flatMap pair_elems ++ [pv1, sub pv1] := by
          simp [pair_elems]
        refine hperm.trans ?_
        rw [e2, ← List.append_assoc]
        have c2 : ((o2 ++ pairs.flatMap pair_elems) ++ [pv1, sub pv1]).Perm
            ([pv1, sub pv1] ++ (o2 ++ pairs.flatMap pair_elems)) :=
          List.perm_append_comm
        have c3 : [pv1, sub pv1] ++ (o2 ++ pairs.flatMap pair_elems) =
            (pv1 :: sub pv1 :: o2) ++ pairs.flatMap pair_elems := by simp
        rw [c3] at c2
        exact c2.trans ((e1.symm).append_right _)
    · obtain ⟨s, p, heq, hpair, hperm⟩ :=
        ih others pairs hnd'
          (fun a ha => hfix a (List.mem_cons_of_mem pv1 ha))
          (fun a ha hno => hinv a (List.mem_cons_of_mem pv1 ha) hno)
      refine ⟨s, p, ?_, hpair, hperm⟩
      show group_pvs_go sub (pv1 :: rest) others pairs = Except.ok (s, p)
      simp only [group_pvs_go]
      rw [if_neg hc]
      exact heq

/-- Claim C5, amended: the grouper iterates over a snapshot of the
original list in order and pairs greedily — each produced pair is
`(a, sub a)` with `a ≠ sub a`, and the returned singles together with the
pair elements are a permutation of the input (so each PV joins at most one
pair).  However, consumed PVs ARE revisited (the iteration is over a
snapshot), and grouping is only guaranteed to succeed when the input has no
duplicates and every replacement value is a fixed point of the replacement
(`sub (sub a) = sub a`); without that it can raise `ValueError` (see the
counterexample). -/
theorem C5_amended (sub : String → String) (pvs : List String)
    (hnd : pvs.Nodup) (hfix : ∀ a ∈ pvs, sub (sub a) = sub a) :
    ∃ singles pairs, group_pvs sub pvs = Except.ok (singles, pairs) ∧
      (∀ q ∈ pairs, q.2 = sub q.1 ∧ q.1 ≠ q.2) ∧
      (singles ++ pairs.flatMap pair_elems).Perm pvs := by
  obtain ⟨s, p, heq, hpair, hperm⟩ :=
    group_pvs_go_spec sub pvs pvs [] hnd hfix (fun a ha hno => absurd ha hno)
  refine ⟨s, p, heq, ?_, ?_⟩
  · intro q hq
    rcases hpair q hq with hx | hx
    · cases hx
    · exact hx
  · simpa using hperm

/-- Claim C5, counterexample: grouping CAN fail.  On
`["A", "AB", "ABB"]` with the pattern `A` → `AB` (so `A ↦ AB ↦ ABB`), the
pair `("A", "AB")` is consumed first; the snapshot iteration then revisits
the consumed `"AB"`, maps it to `"ABB"` (still present), and
`others.remove("AB")` raises `ValueError` — refuting both "once consumed it
is never reconsidered" and "grouping never fails on any input list". -/
theorem C5_counterexample :
    group_pvs sub_a_ab ["A", "AB", "ABB"] =
      Except.error "ValueError: list.remove(x): x not in list" ∧
    sub_a_ab "A" = "AB" ∧ sub_a_ab "AB" = "ABB" :=
  ⟨rfl, rfl, rfl⟩

/-- Claim C5, amended, at the concrete duplicate-free fixed-point input
`["A:PV_IN", "A:PV_OUT"]`. -/
theorem C5_amended_witness :
    ∃ singles pairs,
      group_pvs pair_in_out ["A:PV_IN", "A:PV_OUT"] =
        Except.ok (singles, pairs) ∧
      (∀ q ∈ pairs, q.2 = pair_in_out q.1 ∧ q.1 ≠ q.2) ∧
      (singles ++ pairs.flatMap pair_elems).Perm ["A:PV_IN", "A:PV_OUT"] :=
  C5_amended pair_in_out ["A:PV_IN", "A:PV_OUT"] (by decide) (by decide)

/-- Helper: `stable_insert` only inserts, as a permutation. -/
theorem stable_insert_perm (lt : PvInfo → PvInfo → Bool) (a : PvInfo)
    (l : List PvInfo) : (stable_insert lt a l).Perm (a :: l) := by
  induction l with
  | nil => exact List.Perm.refl _
  | cons b rest ih =>
    unfold stable_insert
    by_cases h : lt a b
    · rw [if_pos h]
    · rw [if_neg h]
      exact (ih.cons b).trans (List.Perm.swap a b rest)

theorem py_sort_fold_perm (lt : PvInfo → PvInfo → Bool) :
    ∀ (l : List PvInfo) (acc : List PvInfo),
    (l.foldl (fun acc a => stable_insert lt a acc) acc).Perm (l ++ acc) := by
  intro l
  induction l with
  | nil => intro acc; exact List.Perm.refl _
  | cons a rest ih =>
    intro acc
    have h1 := ih (stable_insert lt a acc)
    have h2 : (rest ++ stable_insert lt a acc).Perm (rest ++ (a :: acc)) :=
      (stable_insert_perm lt a acc).append_left rest
    exact (h1.trans h2).trans List.perm_middle

/-- Helper: the modelled `list.sort` permutes the list. -/
theorem py_sort_perm (lt : PvInfo → PvInfo → Bool) (l : List PvInfo) :
    (py_sort lt l).Perm l := by
  have := py_sort_fold_perm lt l []
  simpa [py_sort] using this

/-- Helper: `add_widget` appends either nothing or one instance built by
the supplied constructor. -/
theorem add_widget_inst (templates : List (String × Widget)) (x y : ℚ)
    (name : String) (xs ys sp : ℚ) (mk : Widget → Inst) :
    (add_widget templates x y name xs ys sp mk).inst = none ∨
    ∃ w, (add_widget templates x y name xs ys sp mk).inst = some (mk w) := by
  unfold add_widget
  cases lookup_template templates name with
  | none => exact Or.inl rfl
  | some w0 => exact Or.inr ⟨_, rfl⟩

/-- Helper: every instance produced by the per-group fold of `make_display`
either was already in the accumulator or records a merged copy
`(g, shared)` of some group `g` of the processed list. -/
theorem widgets_fold_info (templates : List (String × Widget)) (x : ℚ)
    (inf : SharedInfo) :
    ∀ (pvs : List PvInfo) (acc : List Inst × ℚ),
    ∀ i ∈ (pvs.foldl (widgets_step templates x inf) acc).1,
      i ∈ acc.1 ∨ ∃ g ∈ pvs, i.group_info = some (g, inf) := by
  intro pvs
  induction pvs with
  | nil => intro acc i hi; exact Or.inl hi
  | cons g rest ih =>
    intro acc i hi
    rcases ih (widgets_step templates x inf acc g) i hi with hx | hx
    · unfold widgets_step at hx
      rcases List.mem_append.mp hx with h1 | h1
      · exact Or.inl h1
      · right
        refine ⟨g, List.mem_cons_self g rest, ?_⟩
        rcases add_widget_inst templates x acc.2 g.template inf.x_scale
            inf.y_scale 5 (Inst.group g inf) with hn | ⟨w, hw⟩
        · rw [hn] at h1
          cases h1
        · rw [hw] at h1
          rcases List.mem_singleton.mp (by simpa using h1) with rfl
          rfl
    · obtain ⟨g', hg', he⟩ := hx
      exact Or.inr ⟨g', List.mem_cons_of_mem g hg', he⟩

/-- Helper: the optional title instance is never a group instance. -/
theorem title_inst_info (templates : List (String × Widget)) (x y : ℚ)
    (title : String) (inf : SharedInfo) :
    ∀ i ∈ (if title ≠ "" then
        add_widget templates x y "title_group" inf.x_scale inf.y_scale 5
          (Inst.title title inf)
      else { inst := none, nextY := y } : AddResult).inst.toList,
      i.group_info = none := by
  intro i hi
  by_cases ht : title ≠ ""
  · rw [if_pos ht] at hi
    rcases add_widget_inst templates x y "title_group" inf.x_scale
        inf.y_scale 5 (Inst.title title inf) with hn | ⟨w, hw⟩
    · rw [hn] at hi
      cases hi
    · rw [hw] at hi
      rcases List.mem_singleton.mp (by simpa using hi) with rfl
      rfl
  · rw [if_neg ht] at hi
    cases hi

/-- Claim C10: when a sort key applies, the caller's group list is the one
that is reordered — after the call its contents are the stable sort (a
permutation) of the original records, each of which survives unchanged —
while the shared layout fields are attached only to the (deep-copied)
records recorded in the appended instances: each group instance carries
`(g, shared)` with `g` one of the caller's ORIGINAL records.  (In-place
mutation is modelled by returning the list's post-call contents in
`pvs_after`.) -/
theorem C10_in_place_sort (templates : List (String × Widget))
    (pvs : List PvInfo) (x y : ℚ) (title : String)
    (macros : List (String × String)) (sort : String) (inf : SharedInfo)
    (key : String) (out : DisplayOut)
    (hk : resolve_sort_key sort pvs = Except.ok (some key))
    (hm : make_display templates pvs x y title macros sort inf =
      Except.ok out) :
    out.pvs_after = py_sort (field_lt key) pvs ∧
    out.pvs_after.Perm pvs ∧
    (∀ g ∈ out.pvs_after, g ∈ pvs) ∧
    (∀ i ∈ out.instances, ∀ gs ∈ i.group_info, gs.1 ∈ pvs ∧ gs.2 = inf) := by
  unfold make_display at hm
  rw [hk] at hm
  simp only [Except.ok.injEq] at hm
  subst hm
  refine ⟨rfl, py_sort_perm _ pvs, ?_, ?_⟩
  · intro g hg
    exact (py_sort_perm (field_lt key) pvs).mem_iff.mp hg
  · intro i hi gs hgs
    rcases widgets_fold_info templates x inf (py_sort (field_lt key) pvs)
        _ i hi with hx | hx
    · have hnone := title_inst_info templates x y title inf i hx
      rw [hnone] at hgs
      simp at hgs
    · obtain ⟨g, hg, he⟩ := hx
      rw [he] at hgs
      simp only [Option.mem_def, Option.some.injEq] at hgs
      subst hgs
      exact ⟨(py_sort_perm (field_lt key) pvs).mem_iff.mp hg, rfl⟩

/-- Claim C10, at a concrete two-group list sorted by `sort='pv'`
(`desc_pv` order swaps the caller's list) with an empty catalog. -/
theorem C10_in_place_sort_witness :
    ((⟨[], [], [g_demo, g_demo2], 0⟩ : DisplayOut).pvs_after =
      py_sort (field_lt "desc_pv") [g_demo2, g_demo]) ∧
    ((⟨[], [], [g_demo, g_demo2], 0⟩ : DisplayOut).pvs_after).Perm
      [g_demo2, g_demo] ∧
    (∀ g ∈ (⟨[], [], [g_demo, g_demo2], 0⟩ : DisplayOut).pvs_after,
      g ∈ [g_demo2, g_demo]) ∧
    (∀ i ∈ (⟨[], [], [g_demo, g_demo2], 0⟩ : DisplayOut).instances,
      ∀ gs ∈ i.group_info, gs.1 ∈ [g_demo2, g_demo] ∧
        gs.2 = (⟨1, 1⟩ : SharedInfo)) :=
  C10_in_place_sort [] [g_demo2, g_demo] 0 0 "" [] "pv" ⟨1, 1⟩ "desc_pv"
    ⟨[], [], [g_demo, g_demo2], 0⟩ rfl rfl

/-! #### A. Unfolding equations for the fuel-based scanners -/

theorem py_replace_fuel_congr (pat rep : Chars) :
    ∀ (n : Nat) (f g : Nat) (s : Chars), s.length ≤ n → s.length ≤ f →
      s.length ≤ g → py_replace_fuel pat rep f s = py_replace_fuel pat rep g s := by
  intro n
  induction n with
  | zero =>
    intro f g s hs _ _
    have : s = [] := List.length_eq_zero.mp (Nat.le_zero.mp hs)
    subst this
    cases f <;> cases g <;> rfl
  | succ n ih =>
    intro f g s hs hf hg
    cases s with
    | nil => cases f <;> cases g <;> rfl
    | cons c rest =>
      simp only [List.length_cons] at hs hf hg
      cases f with
      | zero => omega
      | succ f' =>
        cases g with
        | zero => omega
        | succ g' =>
          simp only [py_replace_fuel]
          by_cases hc : pat ≠ [] ∧ pat.isPrefixOf (c :: rest)
          · rw [if_pos hc, if_pos hc]
            have h1 : 1 ≤ pat.length := by
              rcases pat with _ | _
              · exact absurd rfl hc.1
              · simp
            have hlen : (List.drop pat.length (c :: rest)).length ≤ n := by
              simp only [List.length_drop, List.length_cons]
              omega
            have hlf : (List.drop pat.length (c :: rest)).length ≤ f' := by
              simp only [List.length_drop, List.length_cons]
              omega
            have hlg : (List.drop pat.length (c :: rest)).length ≤ g' := by
              simp only [List.length_drop, List.length_cons]
              omega
            rw [ih _ _ _ hlen hlf hlg]
          · rw [if_neg hc, if_neg hc]
            rw [ih f' g' rest (by omega) (by omega) (by omega)]

theorem py_replace_nil (pat rep : Chars) : py_replace pat rep [] =
    if pat = [] then rep else [] := by
  unfold py_replace
  by_cases h : pat = []
  · rw [if_pos h, if_pos h]
    rfl
  · rw [if_neg h, if_neg h]
    rfl

theorem py_replace_pos (pat rep : Chars) (c : Char) (rest : Chars)
    (hp : pat ≠ []) (hpre : pat.isPrefixOf (c :: rest)) :
    py_replace pat rep (c :: rest) =
      rep ++ py_replace pat rep (List.drop pat.length (c :: rest)) := by
  have h1 : 1 ≤ pat.length := by
    rcases pat with _ | _
    · exact absurd rfl hp
    · simp
  unfold py_replace
  rw [if_neg hp, if_neg hp]
  show py_replace_fuel pat rep (rest.length + 1) (c :: rest) = _
  simp only [py_replace_fuel, if_pos (And.intro hp hpre)]
  congr 1
  apply py_replace_fuel_congr pat rep (rest.length + 1)
  · simp only [List.length_drop, List.length_cons]
    omega
  · simp only [List.length_drop, List.length_cons]
    omega
  · exact Nat.le_refl _

theorem py_replace_neg (pat rep : Chars) (c : Char) (rest : Chars)
    (hp : pat ≠ []) (hpre : ¬pat.isPrefixOf (c :: rest)) :
    py_replace pat rep (c :: rest) = c :: py_replace pat rep rest := by
  unfold py_replace
  rw [if_neg hp, if_neg hp]
  show py_replace_fuel pat rep (rest.length + 1) (c :: rest) = _
  simp only [py_replace_fuel,
    if_neg (show ¬(pat ≠ [] ∧ pat.isPrefixOf (c :: rest) = true) from
      fun hc => hpre hc.2)]

theorem tok_rest_length (name : Chars) (c : Char) (rest : Chars) :
    (tok_rest name (c :: rest)).length ≤ rest.length := by
  simp only [tok_rest, List.tail_cons]
  have h2 : ((rest.tail.drop name.length).tail).length ≤ rest.tail.length := by
    simp only [List.length_tail, List.length_drop]
    omega
  have h3 : rest.tail.length ≤ rest.length := by
    simp only [List.length_tail]
    omega
  omega

theorem expand_one_fuel_congr (name rep : Chars) :
    ∀ (n : Nat) (f g : Nat) (s : Chars), s.length ≤ n → s.length ≤ f →
      s.length ≤ g → expand_one_fuel name rep f s = expand_one_fuel name rep g s := by
  intro n
  induction n with
  | zero =>
    intro f g s hs _ _
    have : s = [] := List.length_eq_zero.mp (Nat.le_zero.mp hs)
    subst this
    cases f <;> cases g <;> rfl
  | succ n ih =>
    intro f g s hs hf hg
    cases s with
    | nil => cases f <;> cases g <;> rfl
    | cons c rest =>
      simp only [List.length_cons] at hs hf hg
      cases f with
      | zero => omega
      | succ f' =>
        cases g with
        | zero => omega
        | succ g' =>
          simp only [expand_one_fuel]
          by_cases hc : tok_match name (c :: rest) = true
          · rw [if_pos hc, if_pos hc]
            have hb := tok_rest_length name c rest
            rw [ih f' g' (tok_rest name (c :: rest)) (by omega) (by omega)
              (by omega)]
          · rw [if_neg hc, if_neg hc]
            rw [ih f' g' rest (by omega) (by omega) (by omega)]

theorem expand_one_pos (name rep : Chars) (c : Char) (rest : Chars)
    (h : tok_match name (c :: rest) = true) :
    expand_one name rep (c :: rest) =
      rep ++ expand_one name rep (tok_rest name (c :: rest)) := by
  unfold expand_one
  show expand_one_fuel name rep (rest.length + 1) (c :: rest) = _
  simp only [expand_one_fuel, if_pos h]
  congr 1
  exact expand_one_fuel_congr name rep (rest.length + 1) _ _ _
    (by have := tok_rest_length name c rest; omega)
    (by have := tok_rest_length name c rest; omega) (Nat.le_refl _)

theorem expand_one_neg (name rep : Chars) (c : Char) (rest : Chars)
    (h : ¬tok_match name (c :: rest) = true) :
    expand_one name rep (c :: rest) = c :: expand_one name rep rest := by
  unfold expand_one
  show expand_one_fuel name rep (rest.length + 1) (c :: rest) = _
  simp only [expand_one_fuel, if_neg h]

/-! #### B. Prefix/suffix toolkit and character-class facts -/

theorem prefix_of_prefix_append (l₁ A B : Chars) (h : l₁ <+: A ++ B)
    (hl : l₁.length ≤ A.length) : l₁ <+: A := by
  have h1 : l₁ = (A ++ B).take l₁.length := List.prefix_iff_eq_take.mp h
  rw [List.take_append_eq_append_take, Nat.sub_eq_zero_of_le hl,
    List.take_zero, List.append_nil] at h1
  rw [h1]
  exact List.take_prefix _ _

theorem head_mem_of_prefix_append (l₁ A B : Chars) (h : l₁ <+: A ++ B)
    (hl : A.length < l₁.length) : ∃ c t, B = c :: t ∧ c ∈ l₁ := by
  have h1 : l₁ = (A ++ B).take l₁.length := List.prefix_iff_eq_take.mp h
  rw [List.take_append_eq_append_take] at h1
  cases hB : B with
  | nil =>
    exfalso
    have := h.length_le
    simp only [hB, List.append_nil] at this
    omega
  | cons c t =>
    refine ⟨c, t, rfl, ?_⟩
    rw [hB] at h1
    have h2 : l₁.length - A.length = (l₁.length - A.length - 1) + 1 := by omega
    rw [h2] at h1
    simp only [List.take_succ_cons] at h1
    rw [h1]
    exact List.mem_append_right _ (List.mem_cons_self c _)

theorem suffix_concat_decomp (s A : Chars) (x : Char) (h : s <:+ A ++ [x])
    (hne : s ≠ []) : ∃ t, t <:+ A ∧ s = t ++ [x] := by
  obtain ⟨u, hu⟩ := h
  have hsl : s = s.dropLast ++ [s.getLast hne] := (List.dropLast_append_getLast hne).symm
  rw [hsl, ← List.append_assoc] at hu
  obtain ⟨h1, h2⟩ := List.append_inj' hu (by simp)
  refine ⟨s.dropLast, ⟨u, h1⟩, ?_⟩
  have hx : s.getLast hne = x := by
    simp only [List.cons.injEq] at h2
    exact h2.1
  rw [← hx]
  exact hsl

theorem py_replace_empty_nil_rep : ∀ s : Chars, py_replace_empty [] s = s := by
  intro s
  induction s with
  | nil => rfl
  | cons c rest ih => simp [py_replace_empty, ih]

theorem py_replace_self (pat : Chars) : ∀ (n : Nat) (s : Chars),
    s.length ≤ n → py_replace pat pat s = s := by
  intro n
  induction n with
  | zero =>
    intro s hs
    have : s = [] := List.length_eq_zero.mp (Nat.le_zero.mp hs)
    subst this
    by_cases hp : pat = []
    · rw [py_replace_nil, if_pos hp, hp]
    · rw [py_replace_nil, if_neg hp]
  | succ n ih =>
    intro s hs
    by_cases hp : pat = []
    · subst hp
      unfold py_replace
      rw [if_pos rfl]
      exact py_replace_empty_nil_rep s
    · cases s with
      | nil =>
        rw [py_replace_nil, if_neg hp]
      | cons c rest =>
        simp only [List.length_cons] at hs
        by_cases hpre : pat.isPrefixOf (c :: rest)
        · rw [py_replace_pos pat pat c rest hp hpre]
          have hpre' : pat <+: (c :: rest) := List.isPrefixOf_iff_prefix.mp hpre
          have h1 : 1 ≤ pat.length := by
            rcases pat with _ | _
            · exact absurd rfl hp
            · simp
          have hdl : (List.drop pat.length (c :: rest)).length ≤ n := by
            simp only [List.length_drop, List.length_cons]
            omega
          rw [ih _ hdl]
          have := List.prefix_iff_eq_take.mp hpre'
          conv_rhs => rw [← List.take_append_drop pat.length (c :: rest)]
          rw [← this]
        · rw [py_replace_neg pat pat c rest hp hpre, ih rest (by omega)]

theorem dollar_free_iff (s : Chars) :
    dollar_free s = true ↔ ∀ c ∈ s, c ≠ '$' := by
  simp [dollar_free, List.all_eq_true]

theorem dollar_free_append (a b : Chars) :
    dollar_free (a ++ b) = (dollar_free a && dollar_free b) := by
  simp [dollar_free, List.all_append]

theorem plain_value_spec (v : Chars) (h : plain_value v = true) :
    v ≠ [] ∧ ∀ c ∈ v, c ≠ '$' ∧ c ≠ '(' ∧ c ≠ ')' ∧ c ≠ '\x7b' ∧ c ≠ '\x7d' := by
  unfold plain_value at h
  simp only [Bool.and_eq_true, List.all_eq_true] at h
  obtain ⟨h1, h2⟩ := h
  constructor
  · intro he
    subst he
    simp at h1
  · intro c hc
    have := h2 c hc
    simp only [Bool.not_eq_true', Bool.or_eq_false_iff, beq_eq_false_iff_ne] at this
    exact ⟨this.1.1.1.1, this.1.1.1.2, this.1.1.2, this.1.2, this.2⟩

theorem plain_name_spec (nm : Chars) (h : plain_name nm = true) :
    nm ≠ [] ∧ ∀ c ∈ nm, c.isAlphanum = true := by
  unfold plain_name at h
  simp only [Bool.and_eq_true, List.all_eq_true] at h
  obtain ⟨h1, h2⟩ := h
  constructor
  · intro he
    subst he
    simp at h1
  · exact h2

theorem alnum_not_special (c : Char) (h : c.isAlphanum = true) :
    c ≠ '$' ∧ c ≠ '(' ∧ is_close_bracket c = false := by
  refine ⟨?_, ?_, ?_⟩
  · intro he
    subst he
    exact absurd h (by decide)
  · intro he
    subst he
    exact absurd h (by decide)
  · unfold is_close_bracket
    by_cases h1 : c = ')'
    · subst h1
      exact absurd h (by decide)
    · by_cases h2 : c = '\x7d'
      · subst h2
        exact absurd h (by decide)
      · simp [h1, h2]

/-! #### C. Splitting `py_replace` across safe boundaries -/

theorem infix_of_iff (v : Chars) : ∀ (n : Chars), infix_of v n = true ↔ v <:+: n := by
  intro n
  induction n with
  | nil =>
    simp only [infix_of, List.isEmpty_iff, List.infix_nil]
  | cons c rest ih =>
    simp only [infix_of, Bool.or_eq_true, List.isPrefixOf_iff_prefix, ih,
      List.infix_cons_iff]

theorem py_replace_append_no_match (pat rep : Chars) (hp : pat ≠ []) :
    ∀ (a b : Chars),
    (∀ s, s <:+ a → s ≠ [] → ¬pat.isPrefixOf (s ++ b) = true) →
    py_replace pat rep (a ++ b) = a ++ py_replace pat rep b := by
  intro a
  induction a with
  | nil => intro b _; rfl
  | cons c a' ih =>
    intro b h
    have hcur : ¬pat.isPrefixOf ((c :: a') ++ b) = true :=
      h (c :: a') (List.suffix_refl _) (List.cons_ne_nil c a')
    have : (c :: a') ++ b = c :: (a' ++ b) := rfl
    rw [this, py_replace_neg pat rep c (a' ++ b) hp hcur,
      ih b (fun s hs hne => h s (hs.trans (List.suffix_cons c a')) hne)]
    rfl

theorem py_replace_append_fit (pat rep : Chars) (hp : pat ≠ []) :
    ∀ (n : Nat) (a b : Chars), a.length ≤ n →
    (∀ s, s <:+ a → pat.isPrefixOf (s ++ b) = true → pat.length ≤ s.length) →
    py_replace pat rep (a ++ b) = py_replace pat rep a ++ py_replace pat rep b := by
  have hpl : 1 ≤ pat.length := by
    rcases pat with _ | _
    · exact absurd rfl hp
    · simp
  intro n
  induction n with
  | zero =>
    intro a b ha _
    have : a = [] := List.length_eq_zero.mp (Nat.le_zero.mp ha)
    subst this
    rw [py_replace_nil, if_neg hp]
    rfl
  | succ n ih =>
    intro a b ha h
    cases a with
    | nil =>
      rw [py_replace_nil, if_neg hp]
      rfl
    | cons c a' =>
      simp only [List.length_cons] at ha
      by_cases hpre : pat.isPrefixOf ((c :: a') ++ b) = true
      · have hfit : pat.length ≤ (c :: a').length :=
          h (c :: a') (List.suffix_refl _) hpre
        have hpre2 : pat <+: (c :: a') :=
          prefix_of_prefix_append pat (c :: a') b
            (List.isPrefixOf_iff_prefix.mp hpre) hfit
        have hpre2b : pat.isPrefixOf (c :: a') = true :=
          List.isPrefixOf_iff_prefix.mpr hpre2
        have e1 : (c :: a') ++ b = c :: (a' ++ b) := rfl
        rw [e1, py_replace_pos pat rep c (a' ++ b) hp (by rw [← e1]; exact hpre),
          py_replace_pos pat rep c a' hp hpre2b]
        have e2 : List.drop pat.length (c :: (a' ++ b)) =
            List.drop pat.length (c :: a') ++ b := by
          rw [show (c :: (a' ++ b)) = (c :: a') ++ b from rfl,
            List.drop_append_eq_append_drop,
            Nat.sub_eq_zero_of_le hfit, List.drop_zero]
        rw [e2]
        rw [ih (List.drop pat.length (c :: a')) b
          (by simp only [List.length_drop, List.length_cons]; omega)
          (fun s hs hp2 =>
            h s (hs.trans (List.drop_suffix pat.length (c :: a'))) hp2)]
        simp [List.append_assoc]
      · have hpre2 : ¬pat.isPrefixOf (c :: a') = true := by
          intro hx
          exact hpre (List.isPrefixOf_iff_prefix.mpr
            ((List.isPrefixOf_iff_prefix.mp hx).trans (List.prefix_append _ b)))
        have e1 : (c :: a') ++ b = c :: (a' ++ b) := rfl
        rw [e1, py_replace_neg pat rep c (a' ++ b) hp (by rw [← e1]; exact hpre),
          py_replace_neg pat rep c a' hp hpre2]
        rw [ih a' b (by omega)
          (fun s hs hp2 => h s (hs.trans (List.suffix_cons c a')) hp2)]
        rfl

theorem fit_of_dollar_free (pat a b : Chars) (hpat : ∀ c ∈ pat, c ≠ '$')
    (hb : b = [] ∨ ∃ b', b = '$' :: b') :
    ∀ s, s <:+ a → pat.isPrefixOf (s ++ b) = true → pat.length ≤ s.length := by
  intro s _ hpre
  by_contra hlt
  push_neg at hlt
  have hp : pat <+: s ++ b := List.isPrefixOf_iff_prefix.mp hpre
  rcases hb with hb | ⟨b', hb⟩
  · subst hb
    rw [List.append_nil] at hp
    exact absurd hp.length_le (by omega)
  · subst hb
    obtain ⟨c, t, hct, hcm⟩ := head_mem_of_prefix_append pat s ('$' :: b') hp hlt
    injection hct with h1 h2
    subst h1
    exact hpat '$' hcm rfl

theorem head_of_prefix_cons (v : Chars) (c : Char) (t : Chars)
    (hvne : v ≠ []) (h : v <+: c :: t) : c ∈ v := by
  cases v with
  | nil => exact absurd rfl hvne
  | cons vh vt =>
    rw [List.cons_prefix_cons] at h
    rw [h.1]
    exact List.mem_cons_self _ _

theorem no_match_in_token (v n1 b : Chars) (hv : plain_value v = true)
    (hinf : infix_of v n1 = false) :
    ∀ s, s <:+ token_of n1 → s ≠ [] → ¬v.isPrefixOf (s ++ b) = true := by
  intro s hs hne hpre
  obtain ⟨hvne, hvchars⟩ := plain_value_spec v hv
  have hp : v <+: s ++ b := List.isPrefixOf_iff_prefix.mp hpre
  unfold token_of at hs
  rcases List.suffix_cons_iff.mp hs with hs1 | hs1
  · subst hs1
    have : '$' ∈ v := head_of_prefix_cons v '$' _ hvne hp
    exact (hvchars '$' this).1 rfl
  · rcases List.suffix_cons_iff.mp hs1 with hs2 | hs2
    · subst hs2
      have : '(' ∈ v := head_of_prefix_cons v '(' _ hvne hp
      exact (hvchars '(' this).2.1 rfl
    · obtain ⟨t, htn, hst⟩ := suffix_concat_decomp s n1 ')' hs2 hne
      subst hst
      rw [List.append_assoc] at hp
      by_cases hl : v.length ≤ t.length
      · have hvt : v <+: t := prefix_of_prefix_append v t ([')'] ++ b) hp hl
        have : v <:+: n1 := hvt.isInfix.trans htn.isInfix
        rw [← infix_of_iff] at this
        rw [this] at hinf
        cases hinf
      · push_neg at hl
        obtain ⟨c, t2, hct, hcm⟩ :=
          head_mem_of_prefix_append v t ([')'] ++ b) hp hl
        have : c = ')' := by
          simp only [List.cons_append, List.cons.injEq] at hct
          exact hct.1.symm
        subst this
        exact (hvchars ')' hcm).2.2.1 rfl

/-! #### D. `frag_rep` mirrors one `sub_macros` pass -/

theorem render_nil_toks (h : Chars) : MText.render ⟨h, []⟩ = h := by
  simp [MText.render]

theorem render_cons (h : Chars) (n f : Chars) (ts : List (Chars × Chars)) :
    MText.render ⟨h, (n, f) :: ts⟩ =
      h ++ (token_of n ++ MText.render ⟨f, ts⟩) := by
  simp [MText.render, List.append_assoc]

theorem frag_rep_render (v n : Chars) : ∀ (fuel : Nat) (s : Chars),
    (frag_rep_fuel v n fuel s).render = py_replace_fuel v (token_of n) fuel s := by
  intro fuel
  induction fuel with
  | zero =>
    intro s
    cases s with
    | nil => simp [frag_rep_fuel, py_replace_fuel, MText.render]
    | cons c rest => simp [frag_rep_fuel, py_replace_fuel, MText.render]
  | succ fuel ih =>
    intro s
    cases s with
    | nil => simp [frag_rep_fuel, py_replace_fuel, MText.render]
    | cons c rest =>
      by_cases hc : v ≠ [] ∧ v.isPrefixOf (c :: rest)
      · simp only [frag_rep_fuel, py_replace_fuel, if_pos hc]
        rw [← ih]
        simp [MText.render, List.append_assoc]
      · simp only [frag_rep_fuel, py_replace_fuel, if_neg hc]
        rw [← ih]
        simp [MText.render]

theorem under_nil_toks (m : List (Chars × Chars)) (h : Chars) :
    MText.under m ⟨h, []⟩ = h := by
  simp [MText.under]

theorem frag_rep_under (m : List (Chars × Chars)) (v n : Chars)
    (hm : assoc_val m n = v) : ∀ (fuel : Nat) (s : Chars),
    (frag_rep_fuel v n fuel s).under m = py_replace_fuel v v fuel s := by
  intro fuel
  induction fuel with
  | zero =>
    intro s
    cases s with
    | nil => simp [frag_rep_fuel, py_replace_fuel, MText.under]
    | cons c rest => simp [frag_rep_fuel, py_replace_fuel, MText.under]
  | succ fuel ih =>
    intro s
    cases s with
    | nil => simp [frag_rep_fuel, py_replace_fuel, MText.under]
    | cons c rest =>
      by_cases hc : v ≠ [] ∧ v.isPrefixOf (c :: rest)
      · simp only [frag_rep_fuel, py_replace_fuel, if_pos hc]
        rw [← ih]
        simp [MText.under, hm, List.append_assoc]
      · simp only [frag_rep_fuel, py_replace_fuel, if_neg hc]
        rw [← ih]
        simp [MText.under]

theorem frag_rep_under_self (m : List (Chars × Chars)) (v n f : Chars)
    (hv : v ≠ []) (hm : assoc_val m n = v) :
    (frag_rep v n f).under m = f := by
  unfold frag_rep
  rw [frag_rep_under m v n hm f.length f]
  have : py_replace v v f = py_replace_fuel v v f.length f := by
    unfold py_replace
    rw [if_neg hv]
  rw [← this]
  exact py_replace_self v f.length f (Nat.le_refl _)

theorem frag_rep_chars (v n : Chars) : ∀ (fuel : Nat) (s : Chars),
    (∀ c ∈ (frag_rep_fuel v n fuel s).head, c ∈ s) ∧
    (∀ p ∈ (frag_rep_fuel v n fuel s).toks, p.1 = n ∧ ∀ c ∈ p.2, c ∈ s) := by
  intro fuel
  induction fuel with
  | zero =>
    intro s
    cases s with
    | nil => simp [frag_rep_fuel]
    | cons c rest => simp [frag_rep_fuel]
  | succ fuel ih =>
    intro s
    cases s with
    | nil => simp [frag_rep_fuel]
    | cons c rest =>
      by_cases hc : v ≠ [] ∧ v.isPrefixOf (c :: rest)
      · simp only [frag_rep_fuel, if_pos hc]
        have hdrop : ∀ x ∈ List.drop v.length (c :: rest), x ∈ c :: rest :=
          fun x hx => List.drop_subset _ _ hx
        obtain ⟨ihh, iht⟩ := ih (List.drop v.length (c :: rest))
        constructor
        · intro x hx
          cases hx
        · intro p hp
          rcases List.mem_cons.mp hp with hp1 | hp1
          · subst hp1
            exact ⟨rfl, fun x hx => hdrop x (ihh x hx)⟩
          · obtain ⟨he, hcc⟩ := iht p hp1
            exact ⟨he, fun x hx => hdrop x (hcc x hx)⟩
      · simp only [frag_rep_fuel, if_neg hc]
        obtain ⟨ihh, iht⟩ := ih rest
        constructor
        · intro x hx
          rcases List.mem_cons.mp hx with hx1 | hx1
          · subst hx1
            exact List.mem_cons_self _ _
          · exact List.mem_cons_of_mem _ (ihh x hx1)
        · intro p hp
          obtain ⟨he, hcc⟩ := iht p hp
          exact ⟨he, fun x hx => List.mem_cons_of_mem _ (hcc x hx)⟩

/-! #### E. One `sub_macros` pass on a mixed text -/

theorem py_replace_eq_frag_rep (v n f : Chars) (hv : v ≠ []) :
    py_replace v (token_of n) f = (frag_rep v n f).render := by
  unfold py_replace frag_rep
  rw [if_neg hv, frag_rep_render]

theorem sub_step_render (v n : Chars) (hv : plain_value v = true) :
    ∀ (ts : List (Chars × Chars)) (h : Chars),
    (∀ p ∈ ts, dollar_free p.2 = true ∧ infix_of v p.1 = false) →
    py_replace v (token_of n) (MText.render ⟨h, ts⟩) =
      (sub_step v n ⟨h, ts⟩).render := by
  obtain ⟨hvne, hvchars⟩ := plain_value_spec v hv
  intro ts
  induction ts with
  | nil =>
    intro h _
    rw [render_nil_toks, py_replace_eq_frag_rep v n h hvne]
    simp [sub_step, MText.render]
  | cons p rest ih =>
    intro h hts
    obtain ⟨n1, f1⟩ := p
    rw [render_cons]
    rw [py_replace_append_fit v (token_of n) hvne h.length h
      (token_of n1 ++ MText.render ⟨f1, rest⟩) (Nat.le_refl _)
      (fit_of_dollar_free v h (token_of n1 ++ MText.render ⟨f1, rest⟩)
        (fun c hc => (hvchars c hc).1)
        (Or.inr ⟨'(' :: (n1 ++ [')']) ++ MText.render ⟨f1, rest⟩, rfl⟩))]
    rw [py_replace_append_no_match v (token_of n) hvne (token_of n1)
      (MText.render ⟨f1, rest⟩)
      (no_match_in_token v n1 (MText.render ⟨f1, rest⟩) hv
        (hts (n1, f1) (List.mem_cons_self _ _)).2)]
    rw [ih f1 (fun p hp => hts p (List.mem_cons_of_mem _ hp))]
    rw [py_replace_eq_frag_rep v n h hvne]
    simp [sub_step, MText.render, List.append_assoc]

theorem sub_step_good (v n : Chars) (S : List Chars) (hn : n ∈ S)
    (h : Chars) (ts : List (Chars × Chars))
    (hh : dollar_free h = true)
    (hts : ∀ p ∈ ts, p.1 ∈ S ∧ dollar_free p.2 = true) :
    dollar_free (sub_step v n ⟨h, ts⟩).head = true ∧
    (∀ p ∈ (sub_step v n ⟨h, ts⟩).toks, p.1 ∈ S ∧ dollar_free p.2 = true) := by
  have hdf : ∀ (f : Chars), dollar_free f = true →
      dollar_free (frag_rep v n f).head = true ∧
      ∀ p ∈ (frag_rep v n f).toks, p.1 = n ∧ dollar_free p.2 = true := by
    intro f hf
    obtain ⟨hch, hct⟩ := frag_rep_chars v n f.length f
    constructor
    · rw [dollar_free_iff]
      intro c hc
      exact (dollar_free_iff f).mp hf c (hch c hc)
    · intro p hp
      obtain ⟨he, hcc⟩ := hct p hp
      refine ⟨he, ?_⟩
      rw [dollar_free_iff]
      intro c hc
      exact (dollar_free_iff f).mp hf c (hcc c hc)
  constructor
  · exact (hdf h hh).1
  · intro p hp
    simp only [sub_step, List.mem_append, List.mem_flatMap] at hp
    rcases hp with hp | ⟨q, hq, hp⟩
    · obtain ⟨he, hf⟩ := (hdf h hh).2 p hp
      exact ⟨he ▸ hn, hf⟩
    · obtain ⟨hqS, hqf⟩ := hts q hq
      rcases List.mem_cons.mp hp with hp1 | hp1
      · subst hp1
        exact ⟨hqS, ((hdf q.2 hqf).1)⟩
      · obtain ⟨he, hf⟩ := (hdf q.2 hqf).2 p hp1
        exact ⟨he ▸ hn, hf⟩

theorem under_append_toks (m : List (Chars × Chars)) (h : Chars)
    (A B : List (Chars × Chars)) :
    MText.under m ⟨h, A ++ B⟩ =
      MText.under m ⟨h, A⟩ ++ MText.under m ⟨[], B⟩ := by
  simp [MText.under, List.flatMap_append, List.append_assoc]

theorem under_cons (m : List (Chars × Chars)) (h n1 f1 : Chars)
    (ts : List (Chars × Chars)) :
    MText.under m ⟨h, (n1, f1) :: ts⟩ =
      h ++ (assoc_val m n1 ++ MText.under m ⟨f1, ts⟩) := by
  simp [MText.under, List.append_assoc]

theorem under_split (m : List (Chars × Chars)) (h : Chars)
    (A : List (Chars × Chars)) (n1 X : Chars) (B : List (Chars × Chars)) :
    MText.under m ⟨h, A ++ (n1, X) :: B⟩ =
      MText.under m ⟨h, A⟩ ++ (assoc_val m n1 ++ MText.under m ⟨X, B⟩) := by
  simp [MText.under, List.flatMap_append, List.append_assoc]

theorem sub_step_under (m : List (Chars × Chars)) (v n : Chars)
    (hv : v ≠ []) (hm : assoc_val m n = v) :
    ∀ (ts : List (Chars × Chars)) (h : Chars),
    (sub_step v n ⟨h, ts⟩).under m = MText.under m ⟨h, ts⟩ := by
  intro ts
  induction ts with
  | nil =>
    intro h
    have e : sub_step v n ⟨h, []⟩ = frag_rep v n h := by
      simp [sub_step]
    rw [e, frag_rep_under_self m v n h hv hm, under_nil_toks]
  | cons p rest ih =>
    intro h
    obtain ⟨n1, f1⟩ := p
    have e : sub_step v n ⟨h, (n1, f1) :: rest⟩ =
        ⟨(frag_rep v n h).head,
          (frag_rep v n h).toks ++ ((n1, (frag_rep v n f1).head) ::
            ((frag_rep v n f1).toks ++ rest.flatMap (fun p =>
              (p.1, (frag_rep v n p.2).head) :: (frag_rep v n p.2).toks)))⟩ := by
      simp [sub_step]
    rw [e, under_split]
    have e2 : MText.under m ⟨(frag_rep v n h).head, (frag_rep v n h).toks⟩ = h :=
      frag_rep_under_self m v n h hv hm
    have e3 : MText.under m ⟨(frag_rep v n f1).head,
        (frag_rep v n f1).toks ++ rest.flatMap (fun p =>
          (p.1, (frag_rep v n p.2).head) :: (frag_rep v n p.2).toks)⟩ =
        MText.under m ⟨f1, rest⟩ := ih f1
    rw [e2, e3, under_cons]

theorem assoc_val_eq (m : List (Chars × Chars)) (n v : Chars)
    (hmem : (n, v) ∈ m) (hnodup : (m.map Prod.fst).Nodup) :
    assoc_val m n = v := by
  induction m with
  | nil => cases hmem
  | cons q rest ih =>
    obtain ⟨n1, v1⟩ := q
    simp only [List.map_cons, List.nodup_cons] at hnodup
    rcases List.mem_cons.mp hmem with h1 | h1
    · injection h1 with h2 h3
      subst h2; subst h3
      simp [assoc_val]
    · have hne : n1 ≠ n := by
        intro he
        subst he
        exact hnodup.1 (List.mem_map.mpr ⟨(n1, v), h1, rfl⟩)
      have : assoc_val ((n1, v1) :: rest) n = assoc_val rest n := by
        have hbe : (n1 == n) = false := beq_eq_false_iff_ne.mpr hne
        simp [assoc_val, List.find?, hbe]
      rw [this]
      exact ih h1 hnodup.2

theorem sub_fold (m : List (Chars × Chars))
    (hnodup : (m.map Prod.fst).Nodup)
    (hplain : ∀ nv ∈ m, plain_name nv.1 = true ∧ plain_value nv.2 = true)
    (hninf : ∀ nv ∈ m, ∀ nv' ∈ m, infix_of nv.2 nv'.1 = false) :
    ∀ (todo : List (Chars × Chars)), (∀ nv ∈ todo, nv ∈ m) →
    ∀ (h : Chars) (ts : List (Chars × Chars)),
    dollar_free h = true →
    (∀ p ∈ ts, p.1 ∈ m.map Prod.fst ∧ dollar_free p.2 = true) →
    ∃ h' ts',
      List.foldl (fun t nv => py_replace nv.2 (token_of nv.1) t)
        (MText.render ⟨h, ts⟩) todo = MText.render ⟨h', ts'⟩ ∧
      dollar_free h' = true ∧
      (∀ p ∈ ts', p.1 ∈ m.map Prod.fst ∧ dollar_free p.2 = true) ∧
      MText.under m ⟨h', ts'⟩ = MText.under m ⟨h, ts⟩ := by
  intro todo
  induction todo with
  | nil =>
    intro _ h ts hh hts
    exact ⟨h, ts, rfl, hh, hts, rfl⟩
  | cons nv todo' ih =>
    intro htodo h ts hh hts
    obtain ⟨n, v⟩ := nv
    have hmem : (n, v) ∈ m := htodo (n, v) (List.mem_cons_self _ _)
    have hpv : plain_value v = true := (hplain (n, v) hmem).2
    have hvne : v ≠ [] := (plain_value_spec v hpv).1
    have hassoc : assoc_val m n = v := assoc_val_eq m n v hmem hnodup
    have hstep : py_replace v (token_of n) (MText.render ⟨h, ts⟩) =
        (sub_step v n ⟨h, ts⟩).render := by
      apply sub_step_render v n hpv
      intro p hp
      obtain ⟨hp1, hp2⟩ := hts p hp
      refine ⟨hp2, ?_⟩
      obtain ⟨nv', hnv', he⟩ := List.mem_map.mp hp1
      rw [← he]
      exact hninf (n, v) hmem nv' hnv'
    have hgood := sub_step_good v n (m.map Prod.fst)
      (List.mem_map.mpr ⟨(n, v), hmem, rfl⟩) h ts hh hts
    have hunder := sub_step_under m v n hvne hassoc ts h
    simp only [List.foldl_cons]
    rw [hstep]
    have e : sub_step v n ⟨h, ts⟩ =
        ⟨(sub_step v n ⟨h, ts⟩).head, (sub_step v n ⟨h, ts⟩).toks⟩ := rfl
    obtain ⟨h2, ts2, heq, hh2, hts2, hu2⟩ :=
      ih (fun nv hnv => htodo nv (List.mem_cons_of_mem _ hnv))
        (sub_step v n ⟨h, ts⟩).head (sub_step v n ⟨h, ts⟩).toks
        hgood.1 hgood.2
    refine ⟨h2, ts2, ?_, hh2, hts2, ?_⟩
    · rw [← heq]
    · rw [hu2]
      exact hunder

/-! #### F. One `expand_macros` pass on a mixed text -/

theorem tok_match_not_dollar (name : Chars) (c : Char) (t : Chars)
    (hc : c ≠ '$') : tok_match name (c :: t) = false := by
  cases t with
  | nil => rfl
  | cons b rest => simp [tok_match, hc]

theorem expand_one_nil_text (name rep : Chars) : expand_one name rep [] = [] := rfl

theorem expand_one_dollar_free (name rep : Chars) :
    ∀ (f : Chars), dollar_free f = true → ∀ (b : Chars),
    expand_one name rep (f ++ b) = f ++ expand_one name rep b := by
  intro f
  induction f with
  | nil => intro _ b; rfl
  | cons c f' ih =>
    intro hf b
    have hc : c ≠ '$' := (dollar_free_iff _).mp hf c (List.mem_cons_self _ _)
    have hf' : dollar_free f' = true := by
      rw [dollar_free_iff] at hf ⊢
      exact fun x hx => hf x (List.mem_cons_of_mem _ hx)
    have e : (c :: f') ++ b = c :: (f' ++ b) := rfl
    rw [e, expand_one_neg name rep c (f' ++ b)
      (by rw [tok_match_not_dollar name c (f' ++ b) hc]; simp), ih hf' b]
    rfl

theorem expand_one_token_eq (nj vj b : Chars) :
    expand_one nj vj (token_of nj ++ b) = vj ++ expand_one nj vj b := by
  have e : token_of nj ++ b = '$' :: '(' :: (nj ++ ([')'] ++ b)) := by
    simp [token_of, List.append_assoc]
  have hm : tok_match nj ('$' :: '(' :: (nj ++ ([')'] ++ b))) = true := by
    simp only [tok_match]
    have h1 : nj.isPrefixOf (nj ++ ([')'] ++ b)) = true :=
      List.isPrefixOf_iff_prefix.mpr (List.prefix_append _ _)
    have h2 : (nj ++ ([')'] ++ b)).drop nj.length = [')'] ++ b :=
      List.drop_left _ _
    rw [h1, h2]
    simp [is_open_bracket, head_close, is_close_bracket]
  rw [e, expand_one_pos nj vj '$' _ hm]
  congr 1
  have : tok_rest nj ('$' :: '(' :: (nj ++ ([')'] ++ b))) = b := by
    simp only [tok_rest, List.tail_cons]
    rw [List.drop_left]
    rfl
  rw [this]

theorem tok_match_token_ne (nj n1 b : Chars)
    (hn1 : ∀ c ∈ n1, c.isAlphanum = true)
    (hnj : ∀ c ∈ nj, c.isAlphanum = true) (hne : n1 ≠ nj) :
    tok_match nj (token_of n1 ++ b) = false := by
  have e : token_of n1 ++ b = '$' :: '(' :: (n1 ++ ([')'] ++ b)) := by
    simp [token_of, List.append_assoc]
  rw [e]
  simp only [tok_match]
  cases hpre : nj.isPrefixOf (n1 ++ ([')'] ++ b)) with
  | false => simp [hpre]
  | true =>
    cases hcl : head_close ((n1 ++ ([')'] ++ b)).drop nj.length) with
    | false => simp [hpre, hcl]
    | true =>
      exfalso
      have hp : nj <+: n1 ++ ([')'] ++ b) := List.isPrefixOf_iff_prefix.mp hpre
      rcases lt_trichotomy nj.length n1.length with hlt | heq2 | hgt
      · rw [List.drop_append_eq_append_drop,
          Nat.sub_eq_zero_of_le (by omega), List.drop_zero] at hcl
        cases hd : n1.drop nj.length with
        | nil =>
          have := List.length_drop nj.length n1
          rw [hd] at this
          simp at this
          omega
        | cons c t =>
          rw [hd] at hcl
          have hcm : c ∈ n1 := List.drop_subset _ _ (hd ▸ List.mem_cons_self c t)
          have := (alnum_not_special c (hn1 c hcm)).2.2
          rw [show ((c :: t) ++ ([')'] ++ b)) = c :: (t ++ ([')'] ++ b)) from rfl] at hcl
          simp only [head_close] at hcl
          rw [this] at hcl
          cases hcl
      · have : nj <+: n1 :=
          prefix_of_prefix_append nj n1 ([')'] ++ b) hp (by omega)
        exact hne (this.eq_of_length (by omega)).symm
      · obtain ⟨c, t, hct, hcm⟩ :=
          head_mem_of_prefix_append nj n1 ([')'] ++ b) hp hgt
        injection hct with h1 h2
        subst h1
        exact absurd (hnj ')' hcm) (by decide)

theorem expand_one_token_ne (nj vj n1 b : Chars)
    (hn1 : ∀ c ∈ n1, c.isAlphanum = true)
    (hnj : ∀ c ∈ nj, c.isAlphanum = true) (hne : n1 ≠ nj) :
    expand_one nj vj (token_of n1 ++ b) = token_of n1 ++ expand_one nj vj b := by
  have e : token_of n1 ++ b = '$' :: (('(' :: (n1 ++ [')'])) ++ b) := by
    simp [token_of, List.append_assoc]
  have hm : tok_match nj ('$' :: (('(' :: (n1 ++ [')'])) ++ b)) = false := by
    rw [show ('$' :: (('(' :: (n1 ++ [')'])) ++ b)) = token_of n1 ++ b from e.symm]
    exact tok_match_token_ne nj n1 b hn1 hnj hne
  rw [e, expand_one_neg nj vj '$' _ (by rw [hm]; simp)]
  have hdf : dollar_free ('(' :: (n1 ++ [')'])) = true := by
    rw [dollar_free_iff]
    intro c hc
    rcases List.mem_cons.mp hc with h1 | h1
    · subst h1; decide
    · rcases List.mem_append.mp h1 with h2 | h2
      · exact (alnum_not_special c (hn1 c h2)).1
      · rcases List.mem_singleton.mp h2 with rfl
        decide
  rw [expand_one_dollar_free nj vj _ hdf b]
  rfl

theorem plain_value_dollar_free (v : Chars) (h : plain_value v = true) :
    dollar_free v = true := by
  rw [dollar_free_iff]
  intro c hc
  exact ((plain_value_spec v h).2 c hc).1

theorem expand_toks_spec (nj vj : Chars) (hv : dollar_free vj = true) :
    ∀ (ts : List (Chars × Chars)), (∀ p ∈ ts, dollar_free p.2 = true) →
    dollar_free (expand_toks nj vj ts).1 = true ∧
    ∀ p ∈ (expand_toks nj vj ts).2,
      p.1 ≠ nj ∧ p.1 ∈ ts.map Prod.fst ∧ dollar_free p.2 = true := by
  intro ts
  induction ts with
  | nil =>
    intro _
    exact ⟨rfl, fun p hp => absurd hp (List.not_mem_nil p)⟩
  | cons q rest ih =>
    intro hts
    obtain ⟨n1, f1⟩ := q
    have hf1 : dollar_free f1 = true := (hts (n1, f1) (List.mem_cons_self _ _))
    obtain ⟨ih1, ih2⟩ := ih (fun p hp => hts p (List.mem_cons_of_mem _ hp))
    by_cases he : n1 = nj
    · subst he
      constructor
      · show dollar_free (expand_toks n1 vj ((n1, f1) :: rest)).1 = true
        simp only [expand_toks, if_pos rfl, if_true, eq_self_iff_true]
        rw [dollar_free_append, dollar_free_append, hv, hf1, ih1]
        rfl
      · intro p hp
        simp only [expand_toks, if_pos rfl, if_true, eq_self_iff_true] at hp
        obtain ⟨h1, h2, h3⟩ := ih2 p hp
        exact ⟨h1, List.mem_cons_of_mem _ h2, h3⟩
    · constructor
      · show dollar_free (expand_toks nj vj ((n1, f1) :: rest)).1 = true
        simp only [expand_toks, if_neg he]
        rfl
      · intro p hp
        simp only [expand_toks, if_neg he] at hp
        rcases List.mem_cons.mp hp with hp1 | hp1
        · subst hp1
          refine ⟨he, List.mem_cons_self _ _, ?_⟩
          rw [dollar_free_append, hf1, ih1]
          rfl
        · obtain ⟨h1, h2, h3⟩ := ih2 p hp1
          exact ⟨h1, List.mem_cons_of_mem _ h2, h3⟩

theorem expand_toks_under (m : List (Chars × Chars)) (nj vj : Chars)
    (ha : assoc_val m nj = vj) :
    ∀ (ts : List (Chars × Chars)),
    (expand_toks nj vj ts).1 ++
      (expand_toks nj vj ts).2.flatMap (fun p => assoc_val m p.1 ++ p.2) =
      ts.flatMap (fun p => assoc_val m p.1 ++ p.2) := by
  intro ts
  induction ts with
  | nil => rfl
  | cons q rest ih =>
    obtain ⟨n1, f1⟩ := q
    by_cases he : n1 = nj
    · subst he
      simp only [expand_toks, if_pos rfl, List.flatMap_cons]
      rw [← ih, ha]
      simp [List.append_assoc]
    · simp only [expand_toks, if_neg he, List.flatMap_cons]
      rw [← ih]
      simp [List.append_assoc]

theorem expand_step_under (m : List (Chars × Chars)) (nj vj : Chars)
    (ha : assoc_val m nj = vj) (h : Chars) (ts : List (Chars × Chars)) :
    MText.under m (expand_step nj vj ⟨h, ts⟩) = MText.under m ⟨h, ts⟩ := by
  simp only [expand_step, MText.under]
  rw [List.append_assoc, expand_toks_under m nj vj ha ts]

theorem expand_step_render (nj vj : Chars)
    (hnj : ∀ c ∈ nj, c.isAlphanum = true) :
    ∀ (ts : List (Chars × Chars)) (h : Chars), dollar_free h = true →
    (∀ p ∈ ts, (∀ c ∈ p.1, c.isAlphanum = true) ∧ dollar_free p.2 = true) →
    expand_one nj vj (MText.render ⟨h, ts⟩) =
      (expand_step nj vj ⟨h, ts⟩).render := by
  intro ts
  induction ts with
  | nil =>
    intro h hh _
    rw [render_nil_toks]
    have := expand_one_dollar_free nj vj h hh []
    rw [List.append_nil] at this
    rw [this]
    simp [expand_step, expand_toks, MText.render, expand_one_nil_text]
  | cons q rest ih =>
    intro h hh hts
    obtain ⟨n1, f1⟩ := q
    obtain ⟨hn1, hf1⟩ := hts (n1, f1) (List.mem_cons_self _ _)
    rw [render_cons,
      expand_one_dollar_free nj vj h hh _]
    by_cases he : n1 = nj
    · subst he
      rw [expand_one_token_eq n1 vj _]
      rw [ih f1 hf1 (fun p hp => hts p (List.mem_cons_of_mem _ hp))]
      simp [expand_step, expand_toks, MText.render, List.append_assoc]
    · rw [expand_one_token_ne nj vj n1 _ hn1 hnj (fun hx => he hx)]
      rw [ih f1 hf1 (fun p hp => hts p (List.mem_cons_of_mem _ hp))]
      simp [expand_step, expand_toks, MText.render, he, List.append_assoc]

/-! #### G. The round-trip law -/

theorem expand_fold (m : List (Chars × Chars))
    (hnodup : (m.map Prod.fst).Nodup)
    (hplain : ∀ nv ∈ m, plain_name nv.1 = true ∧ plain_value nv.2 = true) :
    ∀ (todo : List (Chars × Chars)), (∀ nv ∈ todo, nv ∈ m) →
    ∀ (h : Chars) (ts : List (Chars × Chars)), dollar_free h = true →
    (∀ p ∈ ts, p.1 ∈ todo.map Prod.fst ∧ dollar_free p.2 = true ∧
      plain_name p.1 = true) →
    List.foldl (fun t nv => expand_one nv.1 nv.2 t)
      (MText.render ⟨h, ts⟩) todo = MText.under m ⟨h, ts⟩ := by
  intro todo
  induction todo with
  | nil =>
    intro _ h ts hh hts
    cases ts with
    | nil =>
      simp only [List.foldl_nil]
      rw [render_nil_toks, under_nil_toks]
    | cons p rest =>
      have := (hts p (List.mem_cons_self _ _)).1
      simp at this
  | cons nv todo' ih =>
    intro htodo h ts hh hts
    obtain ⟨nj, vj⟩ := nv
    have hmem : (nj, vj) ∈ m := htodo (nj, vj) (List.mem_cons_self _ _)
    have hplm := hplain (nj, vj) hmem
    have hnja : ∀ c ∈ nj, c.isAlphanum = true := (plain_name_spec nj hplm.1).2
    have hassoc : assoc_val m nj = vj := assoc_val_eq m nj vj hmem hnodup
    have hvd : dollar_free vj = true := plain_value_dollar_free vj hplm.2
    simp only [List.foldl_cons]
    rw [expand_step_render nj vj hnja ts h hh
      (fun p hp => ⟨(plain_name_spec p.1 (hts p hp).2.2).2, (hts p hp).2.1⟩)]
    obtain ⟨hdf2, hsp2⟩ := expand_toks_spec nj vj hvd ts
      (fun p hp => (hts p hp).2.1)
    have step : List.foldl (fun t nv => expand_one nv.1 nv.2 t)
        (MText.render ⟨h ++ (expand_toks nj vj ts).1,
          (expand_toks nj vj ts).2⟩) todo' =
        MText.under m ⟨h ++ (expand_toks nj vj ts).1,
          (expand_toks nj vj ts).2⟩ := by
      apply ih (fun nv hnv => htodo nv (List.mem_cons_of_mem _ hnv))
      · rw [dollar_free_append, hh, hdf2]
        rfl
      · intro p hp
        obtain ⟨hne, hmem2, hdf3⟩ := hsp2 p hp
        obtain ⟨q, hq, hqe⟩ := List.mem_map.mp hmem2
        have hkey : p.1 ∈ ((nj, vj) :: todo').map Prod.fst :=
          hqe ▸ (hts q hq).1
        rcases List.mem_cons.mp hkey with h1 | h1
        · exact absurd h1 hne
        · exact ⟨h1, hdf3, hqe ▸ (hts q hq).2.2⟩
    rw [show (expand_step nj vj ⟨h, ts⟩).render =
        MText.render ⟨h ++ (expand_toks nj vj ts).1,
          (expand_toks nj vj ts).2⟩ from rfl]
    rw [step]
    rw [show MText.under m ⟨h ++ (expand_toks nj vj ts).1,
        (expand_toks nj vj ts).2⟩ =
        MText.under m (expand_step nj vj ⟨h, ts⟩) from rfl]
    exact expand_step_under m nj vj hassoc h ts

theorem round_trip_chars (p : Chars) (m : List (Chars × Chars))
    (h : no_token_collisions p m) :
    expand_macros_chars (sub_macros_chars p m) m = p := by
  obtain ⟨hp, hnodup, hplain, hninf⟩ := h
  obtain ⟨h', ts', heq, hh', hts', hu'⟩ :=
    sub_fold m hnodup hplain hninf m (fun nv hnv => hnv) p []
      hp (fun q hq => absurd hq (List.not_mem_nil q))
  rw [render_nil_toks] at heq
  unfold sub_macros_chars expand_macros_chars
  rw [heq]
  rw [expand_fold m hnodup hplain m (fun nv hnv => hnv) h' ts' hh'
    (fun q hq => ⟨(hts' q hq).1, (hts' q hq).2, ?_⟩)]
  · rw [hu', under_nil_toks]
  · obtain ⟨nv, hnv, hne⟩ := List.mem_map.mp (hts' q hq).1
    exact hne ▸ (hplain nv hnv).1

/-- Claim C9: the round-trip law.  For every PV name `p` and macro table
`m` without token collisions (the subject is `$`-free, macro names are
nonempty alphanumeric and pairwise distinct, macro values are nonempty,
free of `$ ( ) { }` and never occur inside a name),
`expand_macros (sub_macros p m) m = p`: rewriting literal values to
`$(name)` tokens and expanding the tokens back are inverse operations. -/
theorem C9_round_trip (p : String) (m : List (String × String))
    (h : no_token_collisions p.toList
      (m.map (fun nv => (nv.1.toList, nv.2.toList)))) :
    expand_macros (sub_macros p m) m = p := by
  unfold sub_macros expand_macros
  have e1 : (String.mk (sub_macros_chars p.toList
      (m.map (fun nv => (nv.1.toList, nv.2.toList))))).toList =
      sub_macros_chars p.toList (m.map (fun nv => (nv.1.toList, nv.2.toList))) :=
    rfl
  rw [e1, round_trip_chars _ _ h]
  cases p
  rfl

/-- Claim C9, at a concrete collision-free name and table. -/
theorem C9_round_trip_witness :
    no_token_collisions ("DEVX" : String).toList
      ([(("M" : String), ("DEV" : String))].map
        (fun nv => (nv.1.toList, nv.2.toList))) ∧
    expand_macros (sub_macros "DEVX" [("M", "DEV")]) [("M", "DEV")] = "DEVX" :=
  ⟨by unfold no_token_collisions; decide,
   C9_round_trip "DEVX" [("M", "DEV")] (by unfold no_token_collisions; decide)⟩
